import Mathlib

/-!
Shallow embedding of the fractal raster engine (src/main.rs and src/pixel.rs)
and proofs about its specification claims.

Modelling conventions:
* Rust byte buffers (Vec of u8) are modelled by `Buf`: a length together with a
  total contents function on byte indices.  Every slice-copy statement
  `dst[d..d+n].copy_from_slice(&src[s..s+n])` becomes a `CopyOp`; executing an
  operation checks the same bounds Rust checks and an out-of-range access
  yields `none` (the Rust panic).
* Machine integers are Nat or Int; the cast `i32 as usize` is taken mod 2^64
  (64-bit target), and the cast `f32 as u32` truncates toward zero saturating
  into the u32 range.  Release-build wrap semantics are modelled throughout:
  u32 addition and multiplication wrap mod 2^32, usize addition and
  multiplication wrap mod 2^64, and every i32 operation (and the cast
  `u32 as i32`) wraps into the i32 range (i32wrap).  A Range whose wrapped
  end is at or below its start is empty, and zip stops at the shorter
  iterator; step_by panics when its step is 0.
* Floating point and MPFR values are modelled as exact rationals.  The two
  library functions whose value the claims never depend on pointwise, f32 log2
  and f32 sqrt, are taken as function parameters; set_prec rounding on the
  arbitrary-precision origin is likewise a function parameter.
* The worker pool is a labelled transition system over an abstract row
  computation `fill`; the commit protocol (snapshot, guard compare, write or
  discard) follows the worker loop in App::start_workers line by line.
-/

/-! ## Byte buffers and copy operations (src/pixel.rs) -/

/-- A byte buffer: length plus contents by byte index (models a Rust Vec of u8). -/
structure Buf where
  len : Nat
  get : Nat → Nat

/-- A single slice copy: n bytes from source index s to destination index d. -/
structure CopyOp where
  s : Nat
  d : Nat
  n : Nat

/-- The operation covers byte index i of the destination. -/
def CopyOp.covers (op : CopyOp) (i : Nat) : Prop :=
  op.d ≤ i ∧ i < op.d + op.n

/-- Execute one copy_from_slice call.  Rust panics unless both ranges lie
inside their buffers; the panic is modelled by none. -/
def copySlice (src dst : Buf) (s d n : Nat) : Option Buf :=
  if s + n ≤ src.len ∧ d + n ≤ dst.len then
    some ⟨dst.len, fun i => if d ≤ i ∧ i < d + n then src.get (s + (i - d)) else dst.get i⟩
  else
    none

/-- Execute a list of copy operations in order, stopping at the first panic. -/
def applyCopies (src : Buf) : Buf → List CopyOp → Option Buf
  | dst, [] => some dst
  | dst, op :: ops =>
    match copySlice src dst op.s op.d op.n with
    | some dst2 => applyCopies src dst2 ops
    | none => none

/-- Pixel dimensions, from the u32 fields of Size32 in src/pixel.rs. -/
structure Size32 where
  w : Nat
  h : Nat

/-- Integer pixel coordinates, from the i32 fields of Point32 in src/pixel.rs. -/
structure Point32 where
  x : Int
  y : Int

/-- Direction to scale the buffer, from ScaleDirection in src/pixel.rs. -/
inductive ScaleDirection where
  | up
  | down

/-- The cast `i32 as usize` on a 64-bit target: reduce mod 2^64. -/
def usizeOfI32 (x : Int) : Nat :=
  (x % 2 ^ 64).toNat

/-- The two's-complement wrap into the i32 range: the release-build result of
every i32 arithmetic operation (add, mul, neg) and of the cast `u32 as i32`. -/
def i32wrap (z : Int) : Int :=
  (z + 2 ^ 31) % 2 ^ 32 - 2 ^ 31

/-- The row copies performed by translate_rect: row k of the overlap rectangle
is copied from byte y + src_offset to byte y + dst_offset with y = k*pitch,
width*4 bytes at a time, exactly as the loop in src/pixel.rs lines 34-48.
The two offsets are computed in i32 (each operation wrapping, including the
cast `pitch as i32` and the negations of the delta components) and then cast
to usize; the byte indices themselves are usize additions mod 2^64. -/
def translateOps (size : Size32) (pitch : Nat) (delta : Point32) : List CopyOp :=
  let width := size.w - delta.x.natAbs
  let height := size.h - delta.y.natAbs
  let pitchI := i32wrap (pitch : Int)
  let srcOffset := usizeOfI32 (i32wrap
    (i32wrap (max delta.y 0 * pitchI) + i32wrap (max delta.x 0 * 4)))
  let dstOffset := usizeOfI32 (i32wrap
    (i32wrap (max (i32wrap (-delta.y)) 0 * pitchI) + i32wrap (max (i32wrap (-delta.x)) 0 * 4)))
  (List.range height).map fun k =>
    ⟨(k * pitch + srcOffset) % 2 ^ 64, (k * pitch + dstOffset) % 2 ^ 64, width * 4⟩

/-- translate_rect from src/pixel.rs: allocate a zero buffer of
pitch*size.h bytes (a u32 product, wrapping mod 2^32) and run the row copies.
step_by panics (before any iteration) when its step pitch is 0, hence the
guard. -/
def translate_rect (src : Buf) (size : Size32) (pitch : Nat) (delta : Point32) : Option Buf :=
  if pitch = 0 then none
  else applyCopies src ⟨pitch * size.h % 2 ^ 32, fun _ => 0⟩ (translateOps size pitch delta)

/-- The per-pixel copies of copy_row_up: the source range
src_lower*4..(src_lower+width)*4 by 4 is zipped with the destination range
dst_lower*8..(dst_lower+width)*8 by 8 (both range ends are usize products,
wrapping mod 2^64; the zip runs for the shorter of the two step counts, and
a wrapped end at or below the start makes the range empty), and source pixel
i is copied to the two destination pixels at byte offsets dstStart + 8i
and +4. -/
def rowUpOps (srcLower dstLower width : Nat) : List CopyOp :=
  let srcStart := srcLower * 4 % 2 ^ 64
  let srcEnd := (srcLower + width) * 4 % 2 ^ 64
  let dstStart := dstLower * 8 % 2 ^ 64
  let dstEnd := (dstLower + width) * 8 % 2 ^ 64
  let count := min ((srcEnd - srcStart + 3) / 4) ((dstEnd - dstStart + 7) / 8)
  (List.range count).flatMap fun i =>
    [⟨srcStart + 4 * i, dstStart + 8 * i, 4⟩,
     ⟨srcStart + 4 * i, dstStart + 8 * i + 4, 4⟩]

/-- The copies of copy_rows_up: src_offset = src_y*src_pitch + src_x is a
usize computation mod 2^64, and the source row range
src_offset..height*src_pitch + src_offset by src_pitch (end wrapping mod
2^64, empty if the wrapped end is at or below the start) is zipped with the
destination row range 0..height*dst_pitch by dst_pitch; each surviving row j
gets one copy_row_up call at row offset j*dstPitch and one at
j*dstPitch + dstPitch/2. -/
def rowsUpOps (srcX srcY width height srcPitch dstPitch : Nat) : List CopyOp :=
  let srcOffset := (srcY * srcPitch + srcX) % 2 ^ 64
  let srcEnd := (height * srcPitch + srcOffset) % 2 ^ 64
  let dstEnd := height * dstPitch % 2 ^ 64
  let count := min ((srcEnd - srcOffset + (srcPitch - 1)) / srcPitch)
    ((dstEnd + (dstPitch - 1)) / dstPitch)
  (List.range count).flatMap fun j =>
    rowUpOps (srcOffset + j * srcPitch) (j * dstPitch) width ++
      rowUpOps (srcOffset + j * srcPitch) (j * dstPitch + dstPitch / 2) width

/-- The per-pixel copies of copy_row_down: the source range
src_lower*8..(src_lower+width)*8 by 8 zipped with the destination range
dst_lower*4..(dst_lower+width)*4 by 4 (ends wrapping mod 2^64), copying
source byte srcStart + 8i to destination byte dstStart + 4i. -/
def rowDownOps (srcLower dstLower width : Nat) : List CopyOp :=
  let srcStart := srcLower * 8 % 2 ^ 64
  let srcEnd := (srcLower + width) * 8 % 2 ^ 64
  let dstStart := dstLower * 4 % 2 ^ 64
  let dstEnd := (dstLower + width) * 4 % 2 ^ 64
  let count := min ((srcEnd - srcStart + 7) / 8) ((dstEnd - dstStart + 3) / 4)
  (List.range count).map fun i =>
    ⟨srcStart + 8 * i, dstStart + 4 * i, 4⟩

/-- The copies of copy_rows_down over all rows: dst_offset = dst_y*dst_pitch
+ dst_x mod 2^64, source row range 0..height*src_pitch by src_pitch zipped
with destination row range dst_offset..height*dst_pitch + dst_offset by
dst_pitch (ends wrapping mod 2^64). -/
def rowsDownOps (dstX dstY width height srcPitch dstPitch : Nat) : List CopyOp :=
  let dstOffset := (dstY * dstPitch + dstX) % 2 ^ 64
  let srcEnd := height * srcPitch % 2 ^ 64
  let dstEnd := (height * dstPitch + dstOffset) % 2 ^ 64
  let count := min ((srcEnd + (srcPitch - 1)) / srcPitch)
    ((dstEnd - dstOffset + (dstPitch - 1)) / dstPitch)
  (List.range count).flatMap fun j =>
    rowDownOps (j * srcPitch) (dstOffset + j * dstPitch) width

/-- scale_rect from src/pixel.rs: allocate a zero buffer of pitch*size.h
bytes (a u32 product, wrapping mod 2^32), convert pitch to pixels, and run
the up or down copies with the delta cast through usize exactly as in the
source (for Down the i32 negation of the delta wraps before the cast).
Both copy_rows functions call step_by with the pixel pitch as the step, and
step_by panics (before any iteration) when the step is 0, hence the guard. -/
def scale_rect (src : Buf) (size : Size32) (pitch : Nat) (delta : Point32)
    (direction : ScaleDirection) : Option Buf :=
  let pitchPx := pitch / 4
  if pitchPx = 0 then none
  else
    let ops :=
      match direction with
      | .up =>
        rowsUpOps (usizeOfI32 delta.x) (usizeOfI32 delta.y)
          (size.w / 2) (size.h / 2) pitchPx pitchPx
      | .down =>
        rowsDownOps (usizeOfI32 (i32wrap (-delta.x)) / 2) (usizeOfI32 (i32wrap (-delta.y)) / 2)
          (size.w / 2) (size.h / 2) pitchPx pitchPx
    applyCopies src ⟨pitch * size.h % 2 ^ 32, fun _ => 0⟩ ops

/-! ## Numeric viewport Rect (src/main.rs lines 132-183) -/

/-- The cast `f32 as u32`: truncate toward zero, negative values to 0, values
above u32::MAX to u32::MAX. -/
def u32cast (q : ℚ) : Nat :=
  if q < 0 then 0 else min ⌊q⌋.toNat (2 ^ 32 - 1)

/-- The viewport: arbitrary-precision origin (x, y) modelled by its rational
value, the f32 scale exponent modelled as a rational, and the constant extra
precision bits scale_prec. -/
structure Rect where
  x : ℚ
  y : ℚ
  scale_exp : ℚ
  scale_prec : Nat

/-- Rect::precision: `self.scale_exp as u32 + self.scale_prec`, a u32 cast
followed by u32 addition (wrapping mod 2^32). -/
def Rect.precision (r : Rect) : Nat :=
  (u32cast r.scale_exp + r.scale_prec) % 2 ^ 32

/-- Rect::scale_mul: subtract log2 of the factor from the scale exponent, then
re-apply the resulting precision to both origin components.  log2F is the f32
log2 library function and setPrecF the MPFR set_prec rounding, both taken as
parameters. -/
def Rect.scale_mul (log2F : ℚ → ℚ) (setPrecF : ℚ → Nat → ℚ) (r : Rect) (factor : ℚ) : Rect :=
  let r1 : Rect := { r with scale_exp := r.scale_exp - log2F factor }
  let prec := r1.precision
  { r1 with x := setPrecF r1.x prec, y := setPrecF r1.y prec }

/-- Rect::high_precision: scale_exp > 52 (F64_BITS). -/
def Rect.high_precision (r : Rect) : Bool :=
  decide ((52 : ℚ) < r.scale_exp)

/-- A sequence of scale_mul calls applied in order. -/
def scaleMulSeq (log2F : ℚ → ℚ) (setPrecF : ℚ → Nat → ℚ) (r : Rect) (fs : List ℚ) : Rect :=
  fs.foldl (Rect.scale_mul log2F setPrecF) r

/-! ## Color kernel (src/main.rs lines 484-568, src/pixel.rs hsv_to_rgb) -/

/-- The escape loop of get_pixel_color_f64, with f64 arithmetic modelled as
exact rationals.  Arguments after the constant c are the mutable state z_real,
z_imag, the iteration counter, and the remaining fuel max_iter - iter. -/
def mandelF64 (c_real c_imag : ℚ) : ℚ → ℚ → Nat → Nat → Nat × ℚ
  | _, _, _, 0 => (0, 0)
  | z_real, z_imag, iter, fuel + 1 =>
    let real_sq := z_real * z_real
    let imag_sq := z_imag * z_imag
    let mag_sq := real_sq + imag_sq
    if 4 < mag_sq then (iter, mag_sq)
    else
      mandelF64 c_real c_imag (real_sq - imag_sq + c_real)
        (2 * z_real * z_imag + c_imag) (iter + 1) fuel

/-- get_pixel_color_f64: run the escape loop from z = 0; a non-escape after
max_iter iterations returns (0, 0.0). -/
def get_pixel_color_f64 (real imag : ℚ) (max_iter : Nat) : Nat × ℚ :=
  mandelF64 real imag 0 0 0 max_iter

/-- The escape loop of get_pixel_color_float (the MPFR path), with the
arbitrary-precision arithmetic modelled as exact rationals; the operation
order (shift left by one, mul_add) follows the source. -/
def mandelFloat (c_real c_imag : ℚ) : ℚ → ℚ → Nat → Nat → Nat × ℚ
  | _, _, _, 0 => (0, 0)
  | z_real, z_imag, iter, fuel + 1 =>
    let real_sq := z_real * z_real
    let imag_sq := z_imag * z_imag
    let mag_sq := real_sq + imag_sq
    if 4 < mag_sq then (iter, mag_sq)
    else
      let z_real_shifted := z_real * 2
      mandelFloat c_real c_imag (real_sq - imag_sq + c_real)
        (z_imag * z_real_shifted + c_imag) (iter + 1) fuel

/-- get_pixel_color_float: run the arbitrary-precision escape loop from z = 0. -/
def get_pixel_color_float (real imag : ℚ) (max_iter : Nat) : Nat × ℚ :=
  mandelFloat real imag 0 0 0 max_iter

/-- Truncation toward zero on rationals, for the Rust float remainder. -/
def qtrunc (q : ℚ) : ℤ :=
  if q < 0 then ⌈q⌉ else ⌊q⌋

/-- The Rust f32 remainder operator: a - b * trunc(a / b). -/
def fmod (a b : ℚ) : ℚ :=
  a - b * (qtrunc (a / b) : ℚ)

/-- The cast `f32 as u8`: truncate toward zero saturating into 0..255. -/
def u8cast (q : ℚ) : Nat :=
  if q < 0 then 0 else min ⌊q⌋.toNat 255

/-- hsv_to_rgb from src/pixel.rs, over exact rationals. -/
def hsv_to_rgb (hue saturation value : ℚ) : Nat × Nat × Nat :=
  let hue := fmod hue 360
  let c := value * saturation
  let x := c * (1 - |fmod (hue / 60) 2 - 1|)
  let m := value - c
  let rgb : ℚ × ℚ × ℚ :=
    if hue < 60 then (c, x, 0)
    else if hue < 120 then (x, c, 0)
    else if hue < 180 then (0, c, x)
    else if hue < 240 then (0, x, c)
    else if hue < 300 then (x, 0, c)
    else (c, 0, x)
  (u8cast ((rgb.1 + m) * 255), u8cast ((rgb.2.1 + m) * 255), u8cast ((rgb.2.2 + m) * 255))

/-- App::get_pixel_color: affine remap c = (3x - 0.5, 3y), one of the two
escape loops selected by high_precision, the black early return when the
returned magnitude squared is below 4, otherwise smooth coloring through
hsv_to_rgb.  sqrtF is the f32 sqrt library function, taken as a parameter. -/
def get_pixel_color (sqrtF : ℚ → ℚ) (x y : ℚ) (max_iter : Nat) (high_precision : Bool)
    (color_cycle : Nat) (saturation : ℚ) : Nat × Nat × Nat :=
  let c_real := x * 3 - 0.5
  let c_imag := y * 3
  let p :=
    if high_precision then get_pixel_color_float c_real c_imag max_iter
    else get_pixel_color_f64 c_real c_imag max_iter
  if p.2 < 4 then (0, 0, 0)
  else
    let sub_iter := 4.5 / p.2 - 0.125
    let hue := sqrtF ((p.1 : ℚ) + sub_iter) / (color_cycle : ℚ) * 360
    hsv_to_rgb hue saturation 1

/-! ## Raster buffer and worker pool (src/main.rs lines 122-130, 383-435) -/

/-- The interlacing map from a claim ticket to a row: (progress * 31) % h,
where progress * 31 is a u32 product wrapping mod 2^32. -/
def rowOfTicket (progress h : Nat) : Nat :=
  progress * 31 % 2 ^ 32 % h

/-- The state a worker snapshots under the lock while claiming a ticket. -/
structure Snapshot where
  rect : Rect
  size : Size32
  max_iter : Nat

/-- The phase of one worker thread between lock acquisitions. -/
inductive WorkerState where
  | idle
  | claimed (snap : Snapshot) (ticket : Nat)
  | computed (snap : Snapshot) (ticket : Nat) (row : List Nat)

/-- The shared Buffer struct (fields relevant to the claims); pixel rows are
recorded per row index. -/
structure BufferState where
  rect : Rect
  size : Size32
  max_iter : Nat
  progress : Nat
  pixels : Nat → Option (List Nat)

/-- The whole system: the locked buffer plus one state per worker index. -/
structure SysState where
  buffer : BufferState
  workers : Nat → WorkerState

/-- The commit-time comparison in App::start_workers lines 418-422: the five
field equalities scale_exp, x, y, size.w, size.h. -/
def commitGuard (b : BufferState) (snap : Snapshot) : Prop :=
  b.rect.scale_exp = snap.rect.scale_exp ∧ b.rect.x = snap.rect.x ∧
    b.rect.y = snap.rect.y ∧ b.size.w = snap.size.w ∧ b.size.h = snap.size.h

/-- The type of the abstract row computation standing for App::fill_pixel_row:
arguments are the row index, the snapshot rect, the snapshot width and the
snapshot max_iter. -/
def RowFill : Type :=
  Nat → Rect → Nat → Nat → List Nat

/-- One atomic step of the system.  Worker steps follow the loop in
App::start_workers: claim a ticket under the lock (progress is incremented
and rect, size, max_iter snapshotted), drop a too-large ticket, compute the
row lock-free from the snapshot, and commit under the lock, writing only when
the guard holds.  Controller steps are a transform (arbitrary new rect with
the same scale_prec, new size, new pixel contents, progress reset) and an
iteration budget change (progress reset). -/
inductive Step (fill : RowFill) : SysState → SysState → Prop
  | claim (s : SysState) (i : Nat) (h : s.workers i = .idle) :
      Step fill s
        ⟨{ s.buffer with progress := s.buffer.progress + 1 },
          Function.update s.workers i
            (.claimed ⟨s.buffer.rect, s.buffer.size, s.buffer.max_iter⟩ s.buffer.progress)⟩
  | drop (s : SysState) (i : Nat) (snap : Snapshot) (t : Nat)
      (h : s.workers i = .claimed snap t) (hge : snap.size.h ≤ t) :
      Step fill s ⟨s.buffer, Function.update s.workers i .idle⟩
  | compute (s : SysState) (i : Nat) (snap : Snapshot) (t : Nat)
      (h : s.workers i = .claimed snap t) (hlt : t < snap.size.h) :
      Step fill s
        ⟨s.buffer,
          Function.update s.workers i
            (.computed snap t (fill (rowOfTicket t snap.size.h) snap.rect snap.size.w snap.max_iter))⟩
  | commitOk (s : SysState) (i : Nat) (snap : Snapshot) (t : Nat) (d : List Nat)
      (h : s.workers i = .computed snap t d) (hg : commitGuard s.buffer snap) :
      Step fill s
        ⟨{ s.buffer with
            pixels := Function.update s.buffer.pixels (rowOfTicket t snap.size.h) (some d) },
          Function.update s.workers i .idle⟩
  | commitStale (s : SysState) (i : Nat) (snap : Snapshot) (t : Nat) (d : List Nat)
      (h : s.workers i = .computed snap t d) (hg : ¬ commitGuard s.buffer snap) :
      Step fill s ⟨s.buffer, Function.update s.workers i .idle⟩
  | transf (s : SysState) (r : Rect) (sz : Size32) (px : Nat → Option (List Nat))
      (hp : r.scale_prec = s.buffer.rect.scale_prec) :
      Step fill s
        ⟨{ rect := r, size := sz, max_iter := s.buffer.max_iter, progress := 0, pixels := px },
          s.workers⟩
  | iterChange (s : SysState) (m : Nat) :
      Step fill s ⟨{ s.buffer with max_iter := m, progress := 0 }, s.workers⟩

/-- Reachability under the step relation. -/
def Reachable (fill : RowFill) : SysState → SysState → Prop :=
  Relation.ReflTransGen (Step fill)

/-! ## Iteration budget handlers (src/main.rs lines 611-626) -/

/-- u32::MAX. -/
def U32_MAX : Nat :=
  2 ^ 32 - 1

/-- The LeftBracket handler: max_iter.saturating_sub(1000) and progress = 0.
Nat subtraction is exactly u32 saturating_sub. -/
def handle_left_bracket (b : BufferState) : BufferState :=
  { b with max_iter := b.max_iter - 1000, progress := 0 }

/-- The RightBracket handler: max_iter.saturating_add(1000) and progress = 0. -/
def handle_right_bracket (b : BufferState) : BufferState :=
  { b with max_iter := min (b.max_iter + 1000) U32_MAX, progress := 0 }

/-! ## Concrete states used by the worker pool witness -/

/-- A concrete row computation for the witness run. -/
def fill0 : RowFill :=
  fun yrow _ wdt m => [yrow, wdt, m]

/-- A concrete viewport for the witness run. -/
def rect0c : Rect :=
  ⟨0, 0, 0, 16⟩

/-- A concrete buffer size for the witness run. -/
def size0c : Size32 :=
  ⟨2, 3⟩

/-- The initial buffer of the witness run. -/
def buf0c : BufferState :=
  ⟨rect0c, size0c, 7, 0, fun _ => none⟩

/-- The initial system state of the witness run: all workers idle. -/
def s0c : SysState :=
  ⟨buf0c, fun _ => .idle⟩

/-- The snapshot worker 0 takes in the witness run. -/
def snap0c : Snapshot :=
  ⟨rect0c, size0c, 7⟩

/-- The witness run after worker 0 claims ticket 0. -/
def s1c : SysState :=
  ⟨{ buf0c with progress := buf0c.progress + 1 },
    Function.update s0c.workers 0 (.claimed snap0c buf0c.progress)⟩

/-- The witness run after worker 0 computes its row. -/
def s2c : SysState :=
  ⟨s1c.buffer,
    Function.update s1c.workers 0
      (.computed snap0c 0 (fill0 (rowOfTicket 0 snap0c.size.h) snap0c.rect snap0c.size.w snap0c.max_iter))⟩

/-! ## Generic lemmas about copy operations -/

theorem copySlice_len {src dst out : Buf} {s d n : Nat}
    (h : copySlice src dst s d n = some out) : out.len = dst.len := by
  unfold copySlice at h
  split at h
  · cases h; rfl
  · cases h

theorem copySlice_bounds {src dst out : Buf} {s d n : Nat}
    (h : copySlice src dst s d n = some out) :
    s + n ≤ src.len ∧ d + n ≤ dst.len := by
  unfold copySlice at h
  split at h
  · assumption
  · cases h

theorem copySlice_get {src dst out : Buf} {s d n : Nat}
    (h : copySlice src dst s d n = some out) (i : Nat) :
    out.get i = if d ≤ i ∧ i < d + n then src.get (s + (i - d)) else dst.get i := by
  unfold copySlice at h
  split at h
  · cases h; rfl
  · cases h

theorem applyCopies_len {src : Buf} {ops : List CopyOp} :
    ∀ {dst out : Buf}, applyCopies src dst ops = some out → out.len = dst.len := by
  induction ops with
  | nil => intro dst out h; cases h; rfl
  | cons op ops ih =>
    intro dst out h
    unfold applyCopies at h
    rcases hcs : copySlice src dst op.s op.d op.n with _ | dst2 <;> rw [hcs] at h
    · cases h
    · exact (ih h).trans (copySlice_len hcs)

theorem applyCopies_isSome_iff {src : Buf} {ops : List CopyOp} :
    ∀ {dst : Buf}, (applyCopies src dst ops).isSome = true ↔
      ∀ op ∈ ops, op.s + op.n ≤ src.len ∧ op.d + op.n ≤ dst.len := by
  induction ops with
  | nil => intro dst; simp [applyCopies]
  | cons op ops ih =>
    intro dst
    unfold applyCopies
    rcases hcs : copySlice src dst op.s op.d op.n with _ | dst2
    · have hcond : ¬ (op.s + op.n ≤ src.len ∧ op.d + op.n ≤ dst.len) := by
        unfold copySlice at hcs
        split at hcs
        · cases hcs
        · assumption
      simp only [Option.isSome_none, Bool.false_eq_true, false_iff]
      intro hall
      exact hcond (hall op (List.mem_cons_self op ops))
    · rw [ih, copySlice_len hcs]
      constructor
      · intro hall op2 hmem
        rcases List.mem_cons.mp hmem with rfl | hmem2
        · exact copySlice_bounds hcs
        · exact hall op2 hmem2
      · intro hall op2 hmem
        exact hall op2 (List.mem_cons_of_mem _ hmem)

theorem applyCopies_get {src : Buf} {ops : List CopyOp} :
    ∀ {dst out : Buf}, applyCopies src dst ops = some out →
      ∀ (i v : Nat), (∀ op ∈ ops, op.covers i → src.get (op.s + (i - op.d)) = v) →
        ((∃ op ∈ ops, op.covers i) → out.get i = v) ∧
          ((∀ op ∈ ops, ¬ op.covers i) → out.get i = dst.get i) := by
  induction ops with
  | nil =>
    intro dst out h i v _
    cases h
    exact ⟨fun hex => absurd hex (by simp), fun _ => rfl⟩
  | cons op ops ih =>
    intro dst out h i v hall
    unfold applyCopies at h
    rcases hcs : copySlice src dst op.s op.d op.n with _ | dst2 <;> rw [hcs] at h
    · cases h
    · have hall2 : ∀ op2 ∈ ops, op2.covers i → src.get (op2.s + (i - op2.d)) = v :=
        fun op2 hm hc => hall op2 (List.mem_cons_of_mem _ hm) hc
      have hmain := ih h i v hall2
      have hdst2 := copySlice_get hcs i
      constructor
      · intro hex
        by_cases hcov : ∃ op2 ∈ ops, op2.covers i
        · exact hmain.1 hcov
        · push_neg at hcov
          have h1 := hmain.2 hcov
          rcases hex with ⟨op2, hm, hc⟩
          rcases List.mem_cons.mp hm with rfl | hm2
          · rw [h1, hdst2, if_pos (show op2.d ≤ i ∧ i < op2.d + op2.n from hc)]
            exact hall op2 (List.mem_cons_self _ _) hc
          · exact absurd hc (hcov op2 hm2)
      · intro hnone
        have h1 := hmain.2 fun op2 hm => hnone op2 (List.mem_cons_of_mem _ hm)
        rw [h1, hdst2,
          if_neg (show ¬ (op.d ≤ i ∧ i < op.d + op.n) from hnone op (List.mem_cons_self _ _))]

/-! ## Claim C3: the interlacing map -/

/-- C3 counterexample: for buffer height 31 the ticket-to-row map is not a
permutation of the rows; tickets 0 and 1 both map to row 0. -/
theorem rowOfTicket_collision_at_31 :
    rowOfTicket 0 31 = rowOfTicket 1 31 ∧ (0 : Nat) ≠ 1 := by
  constructor
  · decide
  · decide

/-- C3 (amended): for every buffer height h > 0 that is coprime with 31 and
small enough that the u32 product t * 31 cannot wrap for tickets t below h
(h * 31 at most 2^32), the ticket-to-row map (t * 31 mod 2^32) % h restricted
to tickets below h is a permutation of the rows below h, so once the claim
counter reaches h every row has been claimed exactly once. -/
theorem rowOfTicket_bijective (h : Nat) (h0 : 0 < h) (hcop : Nat.Coprime 31 h)
    (hb : h * 31 ≤ 2 ^ 32) :
    Function.Bijective fun t : Fin h => (⟨rowOfTicket t.1 h, Nat.mod_lt _ h0⟩ : Fin h) := by
  refine Finite.injective_iff_bijective.mp ?_
  intro a b hab
  have hmod : a.1 * 31 % 2 ^ 32 % h = b.1 * 31 % 2 ^ 32 % h := congrArg Fin.val hab
  have ha31 : a.1 * 31 % 2 ^ 32 = a.1 * 31 := by
    refine Nat.mod_eq_of_lt ?_
    have h1 : a.1 + 1 ≤ h := a.2
    have h2 : (a.1 + 1) * 31 ≤ h * 31 := Nat.mul_le_mul_right 31 h1
    have h3 : (a.1 + 1) * 31 = a.1 * 31 + 31 := by ring
    omega
  have hb31 : b.1 * 31 % 2 ^ 32 = b.1 * 31 := by
    refine Nat.mod_eq_of_lt ?_
    have h1 : b.1 + 1 ≤ h := b.2
    have h2 : (b.1 + 1) * 31 ≤ h * 31 := Nat.mul_le_mul_right 31 h1
    have h3 : (b.1 + 1) * 31 = b.1 * 31 + 31 := by ring
    omega
  rw [ha31, hb31] at hmod
  have hg : Nat.gcd h 31 = 1 := Nat.Coprime.symm hcop
  have hme : a.1 ≡ b.1 [MOD h] := by
    refine Nat.ModEq.cancel_left_of_coprime hg ?_
    simpa [Nat.mul_comm] using hmod
  have hv : a.1 = b.1 := by
    have := hme
    unfold Nat.ModEq at this
    rwa [Nat.mod_eq_of_lt a.2, Nat.mod_eq_of_lt b.2] at this
  exact Fin.ext hv

/-- C3 witness: the amended theorem applied at the concrete height 5. -/
theorem rowOfTicket_bijective_witness :
    0 < 5 ∧ Nat.Coprime 31 5 ∧ 5 * 31 ≤ 2 ^ 32 ∧
      Function.Bijective fun t : Fin 5 =>
        (⟨rowOfTicket t.1 5, Nat.mod_lt _ (by norm_num)⟩ : Fin 5) :=
  ⟨by norm_num, by decide, by norm_num,
    rowOfTicket_bijective 5 (by norm_num) (by decide) (by norm_num)⟩

/-! ## Claim C1: Rect::precision -/

/-- C1 counterexample: at scale exponent 1/2 the precision is 16, which is
below the claimed floor of 64 and differs from ceil(1/2) + 16 = 17: the code
truncates instead of rounding up and has no 64-bit minimum. -/
theorem precision_cex :
    Rect.precision ⟨0, 0, 1/2, 16⟩ = 16 ∧
      Rect.precision ⟨0, 0, 1/2, 16⟩ < 64 ∧ (⌈(1/2 : ℚ)⌉.toNat + 16 : Nat) = 17 := by
  have h1 : Rect.precision ⟨0, 0, 1/2, 16⟩ = 16 := by
    show (u32cast (1/2) + 16) % 2 ^ 32 = 16
    have h2 : u32cast (1/2) = 0 := by
      unfold u32cast
      rw [if_neg (by norm_num)]
      norm_num
    rw [h2]
    decide
  refine ⟨h1, by rw [h1]; norm_num, ?_⟩
  have hc : ⌈(1/2 : ℚ)⌉ = 1 := by
    rw [Int.ceil_eq_iff]
    norm_num

  rw [hc]
  decide

/-- C1 (amended): precision() is the scale exponent cast to u32 (truncation
toward zero, saturating) plus scale_prec = 16 wrapping mod 2^32; for any
nonnegative scale exponent whose floor plus 16 stays below 2^32 it equals
floor(scaleExponent) + 16, with no 64-bit minimum. -/
theorem precision_amended (xv yv q : ℚ) (h0 : 0 ≤ q) (hb : ⌊q⌋.toNat + 16 < 2 ^ 32) :
    Rect.precision ⟨xv, yv, q, 16⟩ = ⌊q⌋.toNat + 16 := by
  show (u32cast q + 16) % 2 ^ 32 = ⌊q⌋.toNat + 16
  have h2 : u32cast q = ⌊q⌋.toNat := by
    unfold u32cast
    rw [if_neg (not_lt.mpr h0), min_eq_left (by omega)]
  rw [h2, Nat.mod_eq_of_lt hb]

/-- C1 witness: the amended theorem applied at scale exponent 5/2. -/
theorem precision_amended_witness :
    0 ≤ (5/2 : ℚ) ∧ ⌊(5/2 : ℚ)⌋.toNat + 16 < 2 ^ 32 ∧
      Rect.precision ⟨0, 0, 5/2, 16⟩ = ⌊(5/2 : ℚ)⌋.toNat + 16 := by
  have hf : ⌊(5/2 : ℚ)⌋ = 2 := by norm_num
  have hb : ⌊(5/2 : ℚ)⌋.toNat + 16 < 2 ^ 32 := by rw [hf]; decide
  exact ⟨by norm_num, hb, precision_amended 0 0 (5/2) (by norm_num) hb⟩

/-! ## Claim C9: iteration budget handlers -/

/-- C9 counterexample: at max_iter = u32::MAX the RightBracket handler leaves
max_iter unchanged (saturating_add), so the applied delta is 0, not 1000. -/
theorem bracket_cex :
    (handle_right_bracket ⟨⟨0, 0, 0, 16⟩, ⟨1, 1⟩, U32_MAX, 7, fun _ => none⟩).max_iter
        = U32_MAX ∧
      U32_MAX ≠ U32_MAX + 1000 := by
  constructor
  · show min (U32_MAX + 1000) U32_MAX = U32_MAX
    omega
  · omega

/-- C9 (amended): LeftBracket applies a delta of 1000 saturating at 0,
RightBracket applies a delta of 1000 saturating at u32::MAX, and both reset
the row claim counter to 0. -/
theorem bracket_amended (b : BufferState) :
    ((handle_left_bracket b).progress = 0 ∧
        (1000 ≤ b.max_iter → (handle_left_bracket b).max_iter + 1000 = b.max_iter) ∧
        (b.max_iter < 1000 → (handle_left_bracket b).max_iter = 0)) ∧
      ((handle_right_bracket b).progress = 0 ∧
        (b.max_iter + 1000 ≤ U32_MAX → (handle_right_bracket b).max_iter = b.max_iter + 1000) ∧
        (U32_MAX < b.max_iter + 1000 → (handle_right_bracket b).max_iter = U32_MAX)) := by
  refine ⟨⟨rfl, fun h => ?_, fun h => ?_⟩, ⟨rfl, fun h => ?_, fun h => ?_⟩⟩
  · show b.max_iter - 1000 + 1000 = b.max_iter
    omega
  · show b.max_iter - 1000 = 0
    omega
  · show min (b.max_iter + 1000) U32_MAX = b.max_iter + 1000
    omega
  · show min (b.max_iter + 1000) U32_MAX = U32_MAX
    omega

/-- C9 witness: the amended theorem applied at the concrete budget 5000. -/
theorem bracket_amended_witness :
    1000 ≤ 5000 ∧ 5000 + 1000 ≤ U32_MAX ∧
      (handle_left_bracket ⟨⟨0, 0, 0, 16⟩, ⟨1, 1⟩, 5000, 9, fun _ => none⟩).max_iter + 1000
          = 5000 ∧
      (handle_right_bracket ⟨⟨0, 0, 0, 16⟩, ⟨1, 1⟩, 5000, 9, fun _ => none⟩).max_iter
          = 5000 + 1000 := by
  have h := bracket_amended ⟨⟨0, 0, 0, 16⟩, ⟨1, 1⟩, 5000, 9, fun _ => none⟩
  have hu : (5000 : Nat) + 1000 ≤ U32_MAX := by unfold U32_MAX; norm_num
  exact ⟨by norm_num, hu, h.1.2.1 (by norm_num), h.2.2.1 hu⟩

/-! ## Claim C8: precision monotonicity under zoom-in -/

theorem u32cast_mono {a b : ℚ} (h : a ≤ b) : u32cast a ≤ u32cast b := by
  unfold u32cast
  by_cases hb : b < 0
  · rw [if_pos (lt_of_le_of_lt h hb), if_pos hb]
  · rw [if_neg hb]
    by_cases ha : a < 0
    · rw [if_pos ha]
      exact Nat.zero_le _
    · rw [if_neg ha]
      exact min_le_min (Int.toNat_le_toNat (Int.floor_le_floor h)) (le_refl _)

theorem u32cast_add16_lt {b : ℚ} (hb : b < 2 ^ 32 - 16) : u32cast b + 16 < 2 ^ 32 := by
  unfold u32cast
  by_cases h : b < 0
  · rw [if_pos h]
    decide
  · rw [if_neg h]
    have h1 : ⌊b⌋ < (2 : ℤ) ^ 32 - 16 := by
      rw [Int.floor_lt]
      have hc : ((((2 : ℤ) ^ 32 - 16) : ℤ) : ℚ) = 2 ^ 32 - 16 := by
        push_cast
        ring
      rw [hc]
      exact hb
    have h2 : min ⌊b⌋.toNat (2 ^ 32 - 1) ≤ ⌊b⌋.toNat := min_le_left _ _
    omega

theorem precision_mono_of_bound {a b : Rect} (hexp : a.scale_exp ≤ b.scale_exp)
    (hpa : a.scale_prec = 16) (hpb : b.scale_prec = 16)
    (hb : b.scale_exp < 2 ^ 32 - 16) :
    a.precision ≤ b.precision := by
  unfold Rect.precision
  rw [hpa, hpb]
  have h1 := u32cast_mono hexp
  have h2 := u32cast_add16_lt hb
  have h3 : u32cast a.scale_exp + 16 < 2 ^ 32 := by omega
  rw [Nat.mod_eq_of_lt h3, Nat.mod_eq_of_lt h2]
  omega

theorem scaleMulSeq_scale_prec (log2F : ℚ → ℚ) (setPrecF : ℚ → Nat → ℚ)
    (r : Rect) (fs : List ℚ) :
    (scaleMulSeq log2F setPrecF r fs).scale_prec = r.scale_prec := by
  induction fs generalizing r with
  | nil => rfl
  | cons f fs ih => exact (ih _).trans rfl

theorem scaleMulSeq_scale_exp_mono (log2F : ℚ → ℚ) (setPrecF : ℚ → Nat → ℚ)
    (hlog : ∀ q : ℚ, 0 < q → q < 1 → log2F q < 0)
    (r : Rect) (fs : List ℚ) (hf : ∀ f ∈ fs, 0 < f ∧ f < 1) :
    r.scale_exp ≤ (scaleMulSeq log2F setPrecF r fs).scale_exp := by
  induction fs generalizing r with
  | nil => exact le_refl _
  | cons f fs ih =>
    have hmem := hf f (List.mem_cons_self _ _)
    have hstep : r.scale_exp ≤ (Rect.scale_mul log2F setPrecF r f).scale_exp := by
      show r.scale_exp ≤ r.scale_exp - log2F f
      have := hlog f hmem.1 hmem.2
      linarith
    exact hstep.trans (ih _ fun g hg => hf g (List.mem_cons_of_mem _ hg))

/-- C8 counterexample: starting at scale exponent 2^32 - 20 (precision
2^32 - 4), one zoom-in by the factor 2^-30 (whose f32 log2 is exactly -30)
pushes the cast past u32::MAX and the wrapping u32 addition in precision()
drops the result to 15, so precision is not non-decreasing. -/
theorem precision_wrap_cex :
    (0 : ℚ) < 1 / 2 ^ 30 ∧ (1 / 2 ^ 30 : ℚ) < 1 ∧
      (∀ q : ℚ, 0 < q → q < 1 → (fun _ : ℚ => (-30 : ℚ)) q < 0) ∧
      (Rect.scale_mul (fun _ => -30) (fun v _ => v)
            ⟨0, 0, 2 ^ 32 - 20, 16⟩ (1 / 2 ^ 30)).precision
        < (⟨0, 0, 2 ^ 32 - 20, 16⟩ : Rect).precision := by
  refine ⟨by norm_num, by norm_num, fun q h1 h2 => by norm_num, ?_⟩
  have hL : (Rect.scale_mul (fun _ => -30) (fun v _ => v)
      ⟨0, 0, 2 ^ 32 - 20, 16⟩ (1 / 2 ^ 30)).precision = 15 := by
    show (u32cast ((2 ^ 32 - 20 : ℚ) - (-30)) + 16) % 2 ^ 32 = 15
    have he : ((2 : ℚ) ^ 32 - 20) - (-30) = ((4294967306 : ℕ) : ℚ) := by norm_num
    rw [he]
    unfold u32cast
    rw [if_neg (by norm_num), Int.floor_natCast]
    decide
  have hR : (⟨0, 0, 2 ^ 32 - 20, 16⟩ : Rect).precision = 4294967292 := by
    show (u32cast (2 ^ 32 - 20 : ℚ) + 16) % 2 ^ 32 = 4294967292
    have he : ((2 : ℚ) ^ 32 - 20) = ((4294967276 : ℕ) : ℚ) := by norm_num
    rw [he]
    unfold u32cast
    rw [if_neg (by norm_num), Int.floor_natCast]
    decide
  rw [hL, hR]
  decide

/-- C8 (amended): with scale_prec = 16 (as in every Rect the program builds)
and under the condition that the final scale exponent stays below 2^32 - 16
(no u32 overflow in precision()), any sequence of scale_mul calls with factors
in (0, 1) makes precision() non-decreasing at every intermediate point, and
high_precision() stays true once true.  The f32 log2 parameter is only assumed
to be negative on (0, 1). -/
theorem precision_monotone_amended (log2F : ℚ → ℚ) (setPrecF : ℚ → Nat → ℚ)
    (hlog : ∀ q : ℚ, 0 < q → q < 1 → log2F q < 0)
    (r : Rect) (hp : r.scale_prec = 16) (fs1 fs2 : List ℚ)
    (hf : ∀ f ∈ fs1 ++ fs2, 0 < f ∧ f < 1)
    (hbound : (scaleMulSeq log2F setPrecF r (fs1 ++ fs2)).scale_exp < 2 ^ 32 - 16) :
    (scaleMulSeq log2F setPrecF r fs1).precision
        ≤ (scaleMulSeq log2F setPrecF r (fs1 ++ fs2)).precision ∧
      ((scaleMulSeq log2F setPrecF r fs1).high_precision = true →
        (scaleMulSeq log2F setPrecF r (fs1 ++ fs2)).high_precision = true) := by
  have happ : scaleMulSeq log2F setPrecF r (fs1 ++ fs2)
      = scaleMulSeq log2F setPrecF (scaleMulSeq log2F setPrecF r fs1) fs2 := by
    unfold scaleMulSeq
    exact List.foldl_append _ _ _ _
  have hf2 : ∀ f ∈ fs2, 0 < f ∧ f < 1 := fun f hm => hf f (List.mem_append_right _ hm)
  have hmono : (scaleMulSeq log2F setPrecF r fs1).scale_exp
      ≤ (scaleMulSeq log2F setPrecF r (fs1 ++ fs2)).scale_exp := by
    rw [happ]
    exact scaleMulSeq_scale_exp_mono _ _ hlog _ fs2 hf2
  constructor
  · refine precision_mono_of_bound hmono ?_ ?_ hbound
    · rw [scaleMulSeq_scale_prec]
      exact hp
    · rw [scaleMulSeq_scale_prec]
      exact hp
  · intro hhp
    unfold Rect.high_precision at hhp ⊢
    have h1 : (52 : ℚ) < (scaleMulSeq log2F setPrecF r fs1).scale_exp :=
      of_decide_eq_true hhp
    exact decide_eq_true (lt_of_lt_of_le h1 hmono)

/-- C8 witness: the amended theorem applied to two zoom-in steps by factor 1/2
with log2 = -1 on them, starting from scale exponent 10. -/
theorem precision_monotone_amended_witness :
    (∀ q : ℚ, 0 < q → q < 1 → (fun _ : ℚ => (-1 : ℚ)) q < 0) ∧
      (⟨0, 0, 10, 16⟩ : Rect).scale_prec = 16 ∧
      (∀ f ∈ ([1/2] ++ [1/2] : List ℚ), 0 < f ∧ f < 1) ∧
      (scaleMulSeq (fun _ => -1) (fun v _ => v) ⟨0, 0, 10, 16⟩ ([1/2] ++ [1/2])).scale_exp
          < 2 ^ 32 - 16 ∧
      ((scaleMulSeq (fun _ => -1) (fun v _ => v) ⟨0, 0, 10, 16⟩ [1/2]).precision
          ≤ (scaleMulSeq (fun _ => -1) (fun v _ => v) ⟨0, 0, 10, 16⟩ ([1/2] ++ [1/2])).precision ∧
        ((scaleMulSeq (fun _ => -1) (fun v _ => v) ⟨0, 0, 10, 16⟩ [1/2]).high_precision = true →
          (scaleMulSeq (fun _ => -1) (fun v _ => v) ⟨0, 0, 10, 16⟩
              ([1/2] ++ [1/2])).high_precision = true)) := by
  have hlog : ∀ q : ℚ, 0 < q → q < 1 → (fun _ : ℚ => (-1 : ℚ)) q < 0 :=
    fun q h1 h2 => by norm_num
  have hf : ∀ f ∈ ([1/2] ++ [1/2] : List ℚ), 0 < f ∧ f < 1 := by
    intro f hm
    simp only [List.mem_append, List.mem_singleton] at hm
    rcases hm with rfl | rfl <;> norm_num
  have hbound : (scaleMulSeq (fun _ => -1) (fun v _ => v) ⟨0, 0, 10, 16⟩
      ([1/2] ++ [1/2])).scale_exp < 2 ^ 32 - 16 := by
    show ((10 : ℚ) - -1 - -1) < 2 ^ 32 - 16
    norm_num
  exact ⟨hlog, rfl, hf, hbound,
    precision_monotone_amended (fun _ => -1) (fun v _ => v) hlog
      ⟨0, 0, 10, 16⟩ rfl [1/2] [1/2] hf hbound⟩

/-! ## Claims C6 and C7: the color kernel -/

theorem mandelF64_succ (c_real c_imag zr zi : ℚ) (iter fuel : Nat) :
    mandelF64 c_real c_imag zr zi iter (fuel + 1) =
      if 4 < zr * zr + zi * zi then (iter, zr * zr + zi * zi)
      else
        mandelF64 c_real c_imag (zr * zr - zi * zi + c_real)
          (2 * zr * zi + c_imag) (iter + 1) fuel := rfl

theorem mandelFloat_succ (c_real c_imag zr zi : ℚ) (iter fuel : Nat) :
    mandelFloat c_real c_imag zr zi iter (fuel + 1) =
      if 4 < zr * zr + zi * zi then (iter, zr * zr + zi * zi)
      else
        mandelFloat c_real c_imag (zr * zr - zi * zi + c_real)
          (zi * (zr * 2) + c_imag) (iter + 1) fuel := rfl

theorem mandelF64_dichotomy (c_real c_imag : ℚ) (fuel : Nat) :
    ∀ (zr zi : ℚ) (iter : Nat),
      (mandelF64 c_real c_imag zr zi iter fuel).2 = 0 ∨
        4 < (mandelF64 c_real c_imag zr zi iter fuel).2 := by
  induction fuel with
  | zero => intro zr zi iter; left; rfl
  | succ fuel ih =>
    intro zr zi iter
    rw [mandelF64_succ]
    by_cases h : 4 < zr * zr + zi * zi
    · rw [if_pos h]
      right
      exact h
    · rw [if_neg h]
      exact ih _ _ _

theorem mandelFloat_dichotomy (c_real c_imag : ℚ) (fuel : Nat) :
    ∀ (zr zi : ℚ) (iter : Nat),
      (mandelFloat c_real c_imag zr zi iter fuel).2 = 0 ∨
        4 < (mandelFloat c_real c_imag zr zi iter fuel).2 := by
  induction fuel with
  | zero => intro zr zi iter; left; rfl
  | succ fuel ih =>
    intro zr zi iter
    rw [mandelFloat_succ]
    by_cases h : 4 < zr * zr + zi * zi
    · rw [if_pos h]
      right
      exact h
    · rw [if_neg h]
      exact ih _ _ _

/-- C7: in both escape loops the returned magnitude squared is either 0 (the
non-escape return, which takes the black early-return branch of
get_pixel_color since 0 < 4) or strictly greater than 4 (a confirmed escape),
so the smooth-coloring division 4.5 / mag_sq is only ever executed with a
divisor above 4 and division by zero cannot occur. -/
theorem kernel_divisor_dichotomy (real imag : ℚ) (max_iter : Nat) :
    ((get_pixel_color_f64 real imag max_iter).2 = 0 ∨
        4 < (get_pixel_color_f64 real imag max_iter).2) ∧
      ((get_pixel_color_float real imag max_iter).2 = 0 ∨
        4 < (get_pixel_color_float real imag max_iter).2) :=
  ⟨mandelF64_dichotomy real imag max_iter 0 0 0,
    mandelFloat_dichotomy real imag max_iter 0 0 0⟩

theorem mandelF64_neg_half (fuel : Nat) :
    ∀ (zr : ℚ) (iter : Nat), -(1/2) ≤ zr → zr ≤ 0 →
      mandelF64 (-(1/2)) 0 zr 0 iter fuel = (0, 0) := by
  induction fuel with
  | zero => intro zr iter h1 h2; rfl
  | succ fuel ih =>
    intro zr iter h1 h2
    rw [mandelF64_succ]
    rw [if_neg (by nlinarith)]
    have hz : (2 * zr * 0 + 0 : ℚ) = 0 := by ring
    rw [hz]
    exact ih _ _ (by nlinarith) (by nlinarith)

/-- C6: at input coordinate (0, 0), which the affine remap sends to
c = -0.5 + 0i, the fixed-precision kernel never escapes, so for every
maxIterations at least 1 the kernel reports the point in the set and
get_pixel_color returns black. -/
theorem escape_black_at_origin (sqrtF : ℚ → ℚ) (max_iter color_cycle : Nat)
    (saturation : ℚ) (_h : 1 ≤ max_iter) :
    get_pixel_color sqrtF 0 0 max_iter false color_cycle saturation = (0, 0, 0) := by
  have hc : (0 : ℚ) * 3 - 0.5 = -(1/2) := by norm_num
  have hci : (0 : ℚ) * 3 = 0 := by norm_num
  have hp : get_pixel_color_f64 ((0 : ℚ) * 3 - 0.5) ((0 : ℚ) * 3) max_iter = (0, 0) := by
    rw [hc, hci]
    exact mandelF64_neg_half max_iter 0 0 (by norm_num) (le_refl 0)
  unfold get_pixel_color
  simp only [Bool.false_eq_true, if_false, hp]
  norm_num

/-- C6 witness: the theorem applied at maxIterations 1 with concrete color
parameters. -/
theorem escape_black_at_origin_witness :
    1 ≤ 1 ∧ get_pixel_color (fun q => q) 0 0 1 false 10 (4/5) = (0, 0, 0) :=
  ⟨le_refl 1, escape_black_at_origin (fun q => q) 1 10 (4/5) (le_refl 1)⟩

/-! ## Claim C2: commit safety of the worker pool -/

/-- The inductive invariant of the worker pool: every snapshot held by a
worker has the scale_prec of the live buffer rect (the transforms never touch
it), and every computed row is the fill of its own snapshot. -/
def WorkerInv (fill : RowFill) (s : SysState) : Prop :=
  ∀ i,
    (∀ snap t, s.workers i = .claimed snap t →
      snap.rect.scale_prec = s.buffer.rect.scale_prec) ∧
    (∀ snap t d, s.workers i = .computed snap t d →
      snap.rect.scale_prec = s.buffer.rect.scale_prec ∧
        d = fill (rowOfTicket t snap.size.h) snap.rect snap.size.w snap.max_iter)

theorem workerInv_init (fill : RowFill) (s : SysState)
    (h : ∀ i, s.workers i = .idle) : WorkerInv fill s := by
  intro i
  constructor
  · intro snap t hw
    rw [h i] at hw
    cases hw
  · intro snap t d hw
    rw [h i] at hw
    cases hw

theorem workerInv_update_idle (fill : RowFill) {s : SysState} (hinv : WorkerInv fill s)
    (i : Nat) (buf2 : BufferState)
    (hrect : buf2.rect.scale_prec = s.buffer.rect.scale_prec) :
    WorkerInv fill ⟨buf2, Function.update s.workers i .idle⟩ := by
  intro k
  constructor
  · intro snap t hw
    dsimp only at hw ⊢
    by_cases hk : k = i
    · subst hk
      rw [Function.update_same] at hw
      cases hw
    · rw [Function.update_noteq hk] at hw
      rw [hrect]
      exact (hinv k).1 snap t hw
  · intro snap t d hw
    dsimp only at hw ⊢
    by_cases hk : k = i
    · subst hk
      rw [Function.update_same] at hw
      cases hw
    · rw [Function.update_noteq hk] at hw
      obtain ⟨h1, h2⟩ := (hinv k).2 snap t d hw
      exact ⟨by rw [hrect]; exact h1, h2⟩

theorem workerInv_step (fill : RowFill) {s s2 : SysState}
    (hstep : Step fill s s2) (hinv : WorkerInv fill s) : WorkerInv fill s2 := by
  cases hstep with
  | claim i h =>
    intro k
    constructor
    · intro snap t hw
      dsimp only at hw ⊢
      by_cases hk : k = i
      · subst hk
        rw [Function.update_same] at hw
        cases hw
        rfl
      · rw [Function.update_noteq hk] at hw
        exact (hinv k).1 snap t hw
    · intro snap t d hw
      dsimp only at hw ⊢
      by_cases hk : k = i
      · subst hk
        rw [Function.update_same] at hw
        cases hw
      · rw [Function.update_noteq hk] at hw
        exact (hinv k).2 snap t d hw
  | drop i snap t h hge =>
    exact workerInv_update_idle fill hinv i _ rfl
  | compute i snap t h hlt =>
    intro k
    constructor
    · intro snap2 t2 hw
      dsimp only at hw ⊢
      by_cases hk : k = i
      · subst hk
        rw [Function.update_same] at hw
        cases hw
      · rw [Function.update_noteq hk] at hw
        exact (hinv k).1 snap2 t2 hw
    · intro snap2 t2 d2 hw
      dsimp only at hw ⊢
      by_cases hk : k = i
      · subst hk
        rw [Function.update_same] at hw
        cases hw
        exact ⟨(hinv k).1 snap t h, rfl⟩
      · rw [Function.update_noteq hk] at hw
        exact (hinv k).2 snap2 t2 d2 hw
  | commitOk i snap t d h hg =>
    exact workerInv_update_idle fill hinv i _ rfl
  | commitStale i snap t d h hg =>
    exact workerInv_update_idle fill hinv i _ rfl
  | transf r sz px hp =>
    intro k
    refine ⟨fun snap2 t2 hw => ?_, fun snap2 t2 d2 hw => ?_⟩
    · exact ((hinv k).1 snap2 t2 hw).trans hp.symm
    · exact ⟨(((hinv k).2 snap2 t2 d2 hw).1).trans hp.symm, ((hinv k).2 snap2 t2 d2 hw).2⟩
  | iterChange m =>
    intro k
    refine ⟨fun snap2 t2 hw => ?_, fun snap2 t2 d2 hw => ?_⟩
    · exact (hinv k).1 snap2 t2 hw
    · exact (hinv k).2 snap2 t2 d2 hw

theorem workerInv_reachable (fill : RowFill) {s0 s : SysState}
    (h0 : ∀ i, s0.workers i = .idle) (hr : Reachable fill s0 s) :
    WorkerInv fill s := by
  induction hr with
  | refl => exact workerInv_init fill s0 h0
  | tail hsteps hstep ih => exact workerInv_step fill hstep ih

/-- C2: in every system state reachable from an all-idle start, if a worker
holds a computed row and the commit guard (snapshot viewport and size equal
the current buffer viewport and size) passes, then the row it writes equals
the fill of the buffer viewport and size that are current at that commit,
so a committed row is consistent with a single current viewport state. -/
theorem worker_commit_consistent (fill : RowFill) (s0 s : SysState)
    (h0 : ∀ i, s0.workers i = .idle) (hr : Reachable fill s0 s)
    (i : Nat) (snap : Snapshot) (t : Nat) (d : List Nat)
    (hw : s.workers i = .computed snap t d) (hg : commitGuard s.buffer snap) :
    snap.rect = s.buffer.rect ∧ snap.size.w = s.buffer.size.w ∧
      snap.size.h = s.buffer.size.h ∧
      d = fill (rowOfTicket t s.buffer.size.h) s.buffer.rect s.buffer.size.w snap.max_iter := by
  have hinv := workerInv_reachable fill h0 hr
  obtain ⟨hprec, hd⟩ := (hinv i).2 snap t d hw
  obtain ⟨hse, hx, hy, hsw, hsh⟩ := hg
  have hrect : snap.rect = s.buffer.rect := by
    show (⟨snap.rect.x, snap.rect.y, snap.rect.scale_exp, snap.rect.scale_prec⟩ : Rect)
        = ⟨s.buffer.rect.x, s.buffer.rect.y, s.buffer.rect.scale_exp, s.buffer.rect.scale_prec⟩
    rw [hx, hy, hse, hprec]
  rw [hrect, ← hsw, ← hsh] at hd
  exact ⟨hrect, hsw.symm, hsh.symm, hd⟩

/-- C2 witness: a concrete two-step run (claim then compute) of one worker
from an all-idle start, with the guard holding since no transform occurred. -/
theorem worker_commit_consistent_witness :
    (∀ i : Nat, s0c.workers i = WorkerState.idle) ∧
      commitGuard s2c.buffer snap0c ∧
      fill0 (rowOfTicket 0 snap0c.size.h) snap0c.rect snap0c.size.w snap0c.max_iter
        = fill0 (rowOfTicket 0 s2c.buffer.size.h) s2c.buffer.rect s2c.buffer.size.w
            snap0c.max_iter := by
  have h0 : ∀ i : Nat, s0c.workers i = WorkerState.idle := fun i => rfl
  have step01 : Step fill0 s0c s1c := Step.claim s0c 0 rfl
  have step12 : Step fill0 s1c s2c := by
    refine Step.compute s1c 0 snap0c 0 ?_ ?_
    · rfl
    · show 0 < 3
      norm_num
  have hr : Reachable fill0 s0c s2c :=
    Relation.ReflTransGen.head step01 (Relation.ReflTransGen.head step12 Relation.ReflTransGen.refl)
  have hg : commitGuard s2c.buffer snap0c := ⟨rfl, rfl, rfl, rfl, rfl⟩
  have hw : s2c.workers 0 = WorkerState.computed snap0c 0
      (fill0 (rowOfTicket 0 snap0c.size.h) snap0c.rect snap0c.size.w snap0c.max_iter) := rfl
  exact ⟨h0, hg,
    (worker_commit_consistent fill0 s0c s2c h0 hr 0 snap0c 0 _ hw hg).2.2.2⟩

/-! ## Claim C4: translate_rect round trip -/

theorem i32wrap_eq_self {z : Int} (h1 : -(2 ^ 31) ≤ z) (h2 : z < 2 ^ 31) :
    i32wrap z = z := by
  unfold i32wrap
  omega

theorem translateOffset_collapse (a b P : Nat) (hP : P < 2 ^ 31)
    (hb : a * P + b * 4 < 2 ^ 31) :
    usizeOfI32 (i32wrap (i32wrap ((a : Int) * i32wrap ((P : Nat) : Int))
      + i32wrap ((b : Int) * 4))) = a * P + b * 4 := by
  have e1 : i32wrap ((P : Nat) : Int) = ((P : Nat) : Int) := by
    unfold i32wrap
    omega
  rw [e1]
  have e2 : (a : Int) * ((P : Nat) : Int) = ((a * P : Nat) : Int) := by
    push_cast
    ring
  have e3 : (b : Int) * 4 = ((b * 4 : Nat) : Int) := by
    push_cast
    ring
  rw [e2, e3]
  have e4 : i32wrap ((a * P : Nat) : Int) = ((a * P : Nat) : Int) := by
    unfold i32wrap
    omega
  have e5 : i32wrap ((b * 4 : Nat) : Int) = ((b * 4 : Nat) : Int) := by
    unfold i32wrap
    omega
  rw [e4, e5]
  have e6 : ((a * P : Nat) : Int) + ((b * 4 : Nat) : Int) = ((a * P + b * 4 : Nat) : Int) := by
    push_cast
    ring
  rw [e6]
  have e7 : i32wrap ((a * P + b * 4 : Nat) : Int) = ((a * P + b * 4 : Nat) : Int) := by
    unfold i32wrap
    omega
  rw [e7]
  unfold usizeOfI32
  omega

theorem translateOffset_collapse2 (z1 z2 : Int) (P : Nat) (hP : P < 2 ^ 31)
    (hz1 : 0 ≤ z1) (hz2 : 0 ≤ z2)
    (hb : z1.toNat * P + z2.toNat * 4 < 2 ^ 31) :
    usizeOfI32 (i32wrap (i32wrap (z1 * i32wrap ((P : Nat) : Int)) + i32wrap (z2 * 4)))
      = z1.toNat * P + z2.toNat * 4 := by
  obtain ⟨a, rfl⟩ := Int.eq_ofNat_of_zero_le hz1
  obtain ⟨b, rfl⟩ := Int.eq_ofNat_of_zero_le hz2
  simp only [Int.toNat_natCast] at hb ⊢
  exact translateOffset_collapse a b P hP hb

theorem cover_split {W A y p q L : Nat} (hpL : p + L ≤ W) (hq : q < W)
    (h1 : A * W + p ≤ y * W + q) (h2 : y * W + q < A * W + p + L) :
    A = y ∧ p ≤ q ∧ q < p + L := by
  have e1 : (y + 1) * W = y * W + W := by ring
  have e2 : (A + 1) * W = A * W + W := by ring
  have k1 : A * W < (y + 1) * W := by omega
  have k2 : y * W < (A + 1) * W := by omega
  have hA : A < y + 1 := Nat.lt_of_mul_lt_mul_right k1
  have hy : y < A + 1 := Nat.lt_of_mul_lt_mul_right k2
  have hAy : A = y := by omega
  subst hAy
  omega

theorem rows_cols_bound {w h R C : Nat} (hR : R + 1 ≤ h) (hC : C ≤ w) :
    R * (w * 4) + C * 4 ≤ w * 4 * h := by
  have h1 : R * (w * 4) + C * 4 ≤ R * (w * 4) + w * 4 := by omega
  have h2 : R * (w * 4) + w * 4 = (R + 1) * (w * 4) := by ring
  have h3 : (R + 1) * (w * 4) ≤ h * (w * 4) := Nat.mul_le_mul_right _ hR
  have h4 : h * (w * 4) = w * 4 * h := by ring
  omega

theorem mem_translateOps {w h : Nat} {dx dy : Int} {op : CopyOp}
    (hw0 : 0 < w) (hb : (h + 1) * (w * 4) < 2 ^ 31)
    (hdx : dx.natAbs ≤ w) (hdy : dy.natAbs ≤ h) :
    op ∈ translateOps ⟨w, h⟩ (w * 4) ⟨dx, dy⟩ ↔
      ∃ k, k < h - dy.natAbs ∧
        op = ⟨k * (w * 4) + ((max dy 0).toNat * (w * 4) + (max dx 0).toNat * 4),
              k * (w * 4) + ((max (-dy) 0).toNat * (w * 4) + (max (-dx) 0).toNat * 4),
              (w - dx.natAbs) * 4⟩ := by
  have hw4 : w * 4 < 2 ^ 31 := by
    have h1 : 1 * (w * 4) ≤ (h + 1) * (w * 4) := Nat.mul_le_mul_right (w * 4) (by omega)
    omega
  have hh31 : h < 2 ^ 31 := by
    have h1 : h + 1 ≤ (h + 1) * (w * 4) := Nat.le_mul_of_pos_right (h + 1) (by omega)
    omega
  have hmul : (h + 1) * (w * 4) = h * (w * 4) + w * 4 := by ring
  have hsb : (max dy 0).toNat * (w * 4) + (max dx 0).toNat * 4 < 2 ^ 31 := by
    have h1 : (max dy 0).toNat * (w * 4) ≤ h * (w * 4) :=
      Nat.mul_le_mul_right (w * 4) (by omega)
    have h2 : (max dx 0).toNat * 4 ≤ w * 4 := Nat.mul_le_mul_right 4 (by omega)
    omega
  have hdb : (max (-dy) 0).toNat * (w * 4) + (max (-dx) 0).toNat * 4 < 2 ^ 31 := by
    have h1 : (max (-dy) 0).toNat * (w * 4) ≤ h * (w * 4) :=
      Nat.mul_le_mul_right (w * 4) (by omega)
    have h2 : (max (-dx) 0).toNat * 4 ≤ w * 4 := Nat.mul_le_mul_right 4 (by omega)
    omega
  unfold translateOps
  dsimp only
  rw [i32wrap_eq_self (show -(2 ^ 31) ≤ -dy by omega) (show -dy < 2 ^ 31 by omega)]
  rw [i32wrap_eq_self (show -(2 ^ 31) ≤ -dx by omega) (show -dx < 2 ^ 31 by omega)]
  rw [translateOffset_collapse2 (max dy 0) (max dx 0) (w * 4) hw4
    (le_max_right _ _) (le_max_right _ _) hsb]
  rw [translateOffset_collapse2 (max (-dy) 0) (max (-dx) 0) (w * 4) hw4
    (le_max_right _ _) (le_max_right _ _) hdb]
  simp only [List.mem_map, List.mem_range]
  constructor
  · rintro ⟨k, hk, rfl⟩
    refine ⟨k, hk, ?_⟩
    have hk4 : k * (w * 4) ≤ h * (w * 4) := Nat.mul_le_mul_right (w * 4) (by omega)
    congr 1
    all_goals omega
  · rintro ⟨k, hk, rfl⟩
    refine ⟨k, hk, ?_⟩
    have hk4 : k * (w * 4) ≤ h * (w * 4) := Nat.mul_le_mul_right (w * 4) (by omega)
    congr 1
    all_goals omega

theorem translate_rect_some {src : Buf} {w h : Nat} {dx dy : Int}
    (hsrc : src.len = w * 4 * h) (hw0 : 0 < w) (hb : (h + 1) * (w * 4) < 2 ^ 31)
    (hdx : dx.natAbs ≤ w) (hdy : dy.natAbs ≤ h) :
    ∃ out, translate_rect src ⟨w, h⟩ (w * 4) ⟨dx, dy⟩ = some out ∧ out.len = w * 4 * h := by
  have halloc : w * 4 * h < 2 ^ 32 := by
    have hmul : (h + 1) * (w * 4) = h * (w * 4) + w * 4 := by ring
    have e : w * 4 * h = h * (w * 4) := by ring
    omega
  have hsome : (applyCopies src ⟨w * 4 * h % 2 ^ 32, fun _ => 0⟩
      (translateOps ⟨w, h⟩ (w * 4) ⟨dx, dy⟩)).isSome = true := by
    rw [applyCopies_isSome_iff]
    intro op hop
    rw [mem_translateOps hw0 hb hdx hdy] at hop
    obtain ⟨k, hk, rfl⟩ := hop
    dsimp only at hk ⊢
    rw [hsrc, Nat.mod_eq_of_lt halloc]
    constructor
    · have e : k * (w * 4) + ((max dy 0).toNat * (w * 4) + (max dx 0).toNat * 4)
          + (w - dx.natAbs) * 4
          = (k + (max dy 0).toNat) * (w * 4) + ((max dx 0).toNat + (w - dx.natAbs)) * 4 := by
        ring
      rw [e]
      exact rows_cols_bound (by omega) (by omega)
    · have e : k * (w * 4) + ((max (-dy) 0).toNat * (w * 4) + (max (-dx) 0).toNat * 4)
          + (w - dx.natAbs) * 4
          = (k + (max (-dy) 0).toNat) * (w * 4)
              + ((max (-dx) 0).toNat + (w - dx.natAbs)) * 4 := by
        ring
      rw [e]
      exact rows_cols_bound (by omega) (by omega)
  unfold translate_rect
  rw [if_neg (show ¬ w * 4 = 0 by omega)]
  dsimp only
  obtain ⟨out, hout⟩ := Option.isSome_iff_exists.mp hsome
  exact ⟨out, hout, (applyCopies_len hout).trans (Nat.mod_eq_of_lt halloc)⟩

theorem copyOp_covers_iff (op : CopyOp) (i : Nat) :
    op.covers i ↔ op.d ≤ i ∧ i < op.d + op.n := Iff.rfl

theorem translate_rect_get {src out : Buf} {w h : Nat} {dx dy : Int}
    (hout : translate_rect src ⟨w, h⟩ (w * 4) ⟨dx, dy⟩ = some out)
    (hw0 : 0 < w) (hb : (h + 1) * (w * 4) < 2 ^ 31)
    (hdx : dx.natAbs ≤ w) (hdy : dy.natAbs ≤ h)
    (x y ch : Nat) (hx : x < w) (hy : y < h) (hch : ch < 4) :
    out.get (y * (w * 4) + x * 4 + ch) =
      if 0 ≤ (x : Int) + dx ∧ (x : Int) + dx < (w : Int) ∧
          0 ≤ (y : Int) + dy ∧ (y : Int) + dy < (h : Int) then
        src.get (((y : Int) + dy).toNat * (w * 4) + ((x : Int) + dx).toNat * 4 + ch)
      else 0 := by
  unfold translate_rect at hout
  rw [if_neg (show ¬ w * 4 = 0 by omega)] at hout
  by_cases hcase : 0 ≤ (x : Int) + dx ∧ (x : Int) + dx < (w : Int) ∧
      0 ≤ (y : Int) + dy ∧ (y : Int) + dy < (h : Int)
  · rw [if_pos hcase]
    obtain ⟨hc1, hc2, hc3, hc4⟩ := hcase
    have hall : ∀ op ∈ translateOps ⟨w, h⟩ (w * 4) ⟨dx, dy⟩,
        op.covers (y * (w * 4) + x * 4 + ch) →
          src.get (op.s + (y * (w * 4) + x * 4 + ch - op.d)) =
            src.get (((y : Int) + dy).toNat * (w * 4) + ((x : Int) + dx).toNat * 4 + ch) := by
      intro op hop hcov
      rw [mem_translateOps hw0 hb hdx hdy] at hop
      obtain ⟨k, hk, rfl⟩ := hop
      rw [copyOp_covers_iff] at hcov
      obtain ⟨hcd, hcu⟩ := hcov
      dsimp only at hk hcd hcu ⊢
      have hd_eq : k * (w * 4) + ((max (-dy) 0).toNat * (w * 4) + (max (-dx) 0).toNat * 4)
          = (k + (max (-dy) 0).toNat) * (w * 4) + (max (-dx) 0).toNat * 4 := by ring
      rw [hd_eq] at hcd hcu ⊢
      have hsplit :=
        @cover_split (w * 4) (k + (max (-dy) 0).toNat) y ((max (-dx) 0).toNat * 4)
          (x * 4 + ch) ((w - dx.natAbs) * 4) (by omega) (by omega) (by omega) (by omega)
      obtain ⟨hrowEq, hcolLe, hcolLt⟩ := hsplit
      congr 1
      have hs_eq : k * (w * 4) + ((max dy 0).toNat * (w * 4) + (max dx 0).toNat * 4)
          = (k + (max dy 0).toNat) * (w * 4) + (max dx 0).toNat * 4 := by ring
      rw [hs_eq]
      have hrow2 : k + (max dy 0).toNat = ((y : Int) + dy).toNat := by omega
      rw [hrow2, hrowEq]
      omega
    have hex : ∃ op ∈ translateOps ⟨w, h⟩ (w * 4) ⟨dx, dy⟩,
        op.covers (y * (w * 4) + x * 4 + ch) := by
      refine ⟨⟨(y - (max (-dy) 0).toNat) * (w * 4)
                + ((max dy 0).toNat * (w * 4) + (max dx 0).toNat * 4),
              (y - (max (-dy) 0).toNat) * (w * 4)
                + ((max (-dy) 0).toNat * (w * 4) + (max (-dx) 0).toNat * 4),
              (w - dx.natAbs) * 4⟩, ?_, ?_⟩
      · rw [mem_translateOps hw0 hb hdx hdy]
        refine ⟨y - (max (-dy) 0).toNat, ?_, rfl⟩
        dsimp only
        omega
      · rw [copyOp_covers_iff]
        dsimp only
        have e : (y - (max (-dy) 0).toNat) * (w * 4)
            + ((max (-dy) 0).toNat * (w * 4) + (max (-dx) 0).toNat * 4)
            = ((y - (max (-dy) 0).toNat) + (max (-dy) 0).toNat) * (w * 4)
                + (max (-dx) 0).toNat * 4 := by ring
        rw [e]
        have e2 : (y - (max (-dy) 0).toNat) + (max (-dy) 0).toNat = y := by omega
        rw [e2]
        omega
    exact (applyCopies_get hout (y * (w * 4) + x * 4 + ch)
      (src.get (((y : Int) + dy).toNat * (w * 4) + ((x : Int) + dx).toNat * 4 + ch)) hall).1 hex
  · rw [if_neg hcase]
    have hnone : ∀ op ∈ translateOps ⟨w, h⟩ (w * 4) ⟨dx, dy⟩,
        ¬ op.covers (y * (w * 4) + x * 4 + ch) := by
      intro op hop hcov
      rw [mem_translateOps hw0 hb hdx hdy] at hop
      obtain ⟨k, hk, rfl⟩ := hop
      rw [copyOp_covers_iff] at hcov
      obtain ⟨hcd, hcu⟩ := hcov
      dsimp only at hk hcd hcu
      have hd_eq : k * (w * 4) + ((max (-dy) 0).toNat * (w * 4) + (max (-dx) 0).toNat * 4)
          = (k + (max (-dy) 0).toNat) * (w * 4) + (max (-dx) 0).toNat * 4 := by ring
      rw [hd_eq] at hcd hcu
      by_cases hwid : w - dx.natAbs = 0
      · omega
      · have hsplit :=
          @cover_split (w * 4) (k + (max (-dy) 0).toNat) y ((max (-dx) 0).toNat * 4)
            (x * 4 + ch) ((w - dx.natAbs) * 4) (by omega) (by omega) (by omega) (by omega)
        obtain ⟨hrowEq, hcolLe, hcolLt⟩ := hsplit
        exact hcase ⟨by omega, by omega, by omega, by omega⟩
    exact (applyCopies_get hout (y * (w * 4) + x * 4 + ch) 0
      (fun op hop hcov => absurd hcov (hnone op hop))).2 hnone

/-- C4 counterexample: for a 1x1 buffer and delta (2, 0) the overlap width
saturates to 0 but the source offset 8 exceeds the 4-byte buffer, so the row
copy indexes out of range and translate_rect panics (none) instead of yielding
a buffer: the claim does not hold for every integer pixel delta. -/
theorem translate_total_cex :
    translate_rect ⟨4, fun _ => 0⟩ ⟨1, 1⟩ (1 * 4) ⟨2, 0⟩ = none := rfl

/-- C4 (amended): for buffers with 0 < w and (h+1)*(w*4) < 2^31 (so the u32
allocation pitch*h, the i32 offset arithmetic including the cast
`pitch as i32`, and the usize byte indices all stay below their wrap points)
and deltas bounded by the buffer dimensions (|dx| <= w, |dy| <= h, which is
what keeps the row copies in range), translating by (dx, dy) and then by
(-dx, -dy) succeeds and yields a buffer equal to the original at every pixel
whose translate of the delta stayed inside the buffer, and zero-filled on
the border strips of width |dx| and |dy| at the edges the delta passed
through. -/
theorem translate_roundtrip_amended {src : Buf} {w h : Nat} {dx dy : Int}
    (hsrc : src.len = w * 4 * h) (hw0 : 0 < w) (hb : (h + 1) * (w * 4) < 2 ^ 31)
    (hdx : dx.natAbs ≤ w) (hdy : dy.natAbs ≤ h)
    (x y ch : Nat) (hx : x < w) (hy : y < h) (hch : ch < 4) :
    ∃ mid out, translate_rect src ⟨w, h⟩ (w * 4) ⟨dx, dy⟩ = some mid ∧
      translate_rect mid ⟨w, h⟩ (w * 4) ⟨-dx, -dy⟩ = some out ∧
      ((0 ≤ (x : Int) - dx ∧ (x : Int) - dx < (w : Int) ∧
          0 ≤ (y : Int) - dy ∧ (y : Int) - dy < (h : Int) →
        out.get (y * (w * 4) + x * 4 + ch) = src.get (y * (w * 4) + x * 4 + ch)) ∧
       (¬ (0 ≤ (x : Int) - dx ∧ (x : Int) - dx < (w : Int) ∧
            0 ≤ (y : Int) - dy ∧ (y : Int) - dy < (h : Int)) →
        out.get (y * (w * 4) + x * 4 + ch) = 0)) := by
  obtain ⟨mid, hmid, hmidlen⟩ := translate_rect_some hsrc hw0 hb hdx hdy
  have hdx2 : (-dx).natAbs ≤ w := by rw [Int.natAbs_neg]; exact hdx
  have hdy2 : (-dy).natAbs ≤ h := by rw [Int.natAbs_neg]; exact hdy
  obtain ⟨out, hout2, _⟩ := @translate_rect_some mid w h (-dx) (-dy) hmidlen hw0 hb hdx2 hdy2
  refine ⟨mid, out, hmid, hout2, ?_, ?_⟩
  · intro hin
    obtain ⟨h1, h2, h3, h4⟩ := hin
    have hget2 := translate_rect_get hout2 hw0 hb hdx2 hdy2 x y ch hx hy hch
    rw [if_pos ⟨by omega, by omega, by omega, by omega⟩] at hget2
    have hyeq : ((y : Int) + -dy).toNat = ((y : Int) - dy).toNat := by omega
    have hxeq : ((x : Int) + -dx).toNat = ((x : Int) - dx).toNat := by omega
    rw [hyeq, hxeq] at hget2
    have hget1 := translate_rect_get hmid hw0 hb hdx hdy
      (((x : Int) - dx).toNat) (((y : Int) - dy).toNat) ch (by omega) (by omega) hch
    rw [if_pos ⟨by omega, by omega, by omega, by omega⟩] at hget1
    have ex : (((((x : Int) - dx).toNat : Nat) : Int) + dx).toNat = x := by omega
    have ey : (((((y : Int) - dy).toNat : Nat) : Int) + dy).toNat = y := by omega
    rw [ex, ey] at hget1
    rw [hget2, hget1]
  · intro hnot
    have hget2 := translate_rect_get hout2 hw0 hb hdx2 hdy2 x y ch hx hy hch
    rw [if_neg (fun hcon => hnot ⟨by omega, by omega, by omega, by omega⟩)] at hget2
    exact hget2

/-- C4 witness: the amended theorem on a concrete 2x2 buffer with delta (1, 0)
at the preserved pixel (1, 0). -/
theorem translate_roundtrip_amended_witness :
    (⟨16, fun i => i + 1⟩ : Buf).len = 2 * 4 * 2 ∧ 0 < 2 ∧
      (2 + 1) * (2 * 4) < 2 ^ 31 ∧ (1 : Int).natAbs ≤ 2 ∧
      (0 : Int).natAbs ≤ 2 ∧ 1 < 2 ∧ 0 < 2 ∧ 0 < 4 ∧
      (∃ mid out, translate_rect ⟨16, fun i => i + 1⟩ ⟨2, 2⟩ (2 * 4) ⟨1, 0⟩ = some mid ∧
        translate_rect mid ⟨2, 2⟩ (2 * 4) ⟨-1, -0⟩ = some out ∧
        ((0 ≤ (1 : Int) - 1 ∧ (1 : Int) - 1 < (2 : Int) ∧
            0 ≤ (0 : Int) - 0 ∧ (0 : Int) - 0 < (2 : Int) →
          out.get (0 * (2 * 4) + 1 * 4 + 0) = (⟨16, fun i => i + 1⟩ : Buf).get
            (0 * (2 * 4) + 1 * 4 + 0)) ∧
         (¬ (0 ≤ (1 : Int) - 1 ∧ (1 : Int) - 1 < (2 : Int) ∧
              0 ≤ (0 : Int) - 0 ∧ (0 : Int) - 0 < (2 : Int)) →
          out.get (0 * (2 * 4) + 1 * 4 + 0) = 0))) :=
  ⟨rfl, by decide, by decide, by decide, by decide, by decide, by decide, by decide,
    @translate_roundtrip_amended ⟨16, fun i => i + 1⟩ 2 2 1 0 rfl (by decide) (by decide)
      (by decide) (by decide) 1 0 0 (by decide) (by decide) (by decide)⟩

/-! ## Claims C5 and C10: scale_rect -/

theorem cell_bound {r c w h k : Nat} (hc : c < k * w) (hr : r + k ≤ h) :
    r * w + c < h * w := by
  have h1 : r * w + c < r * w + k * w := by omega
  have h2 : r * w + k * w = (r + k) * w := by ring
  have h3 : (r + k) * w ≤ h * w := Nat.mul_le_mul_right _ hr
  omega

theorem rowcol_inj {w r r2 c c2 : Nat} (hc : c < w) (hc2 : c2 < w)
    (h : r * w + c = r2 * w + c2) : r = r2 ∧ c = c2 := by
  have e1 : (r + 1) * w = r * w + w := by ring
  have e2 : (r2 + 1) * w = r2 * w + w := by ring
  have k1 : r * w < (r2 + 1) * w := by omega
  have k2 : r2 * w < (r + 1) * w := by omega
  have hr1 : r < r2 + 1 := Nat.lt_of_mul_lt_mul_right k1
  have hr2 : r2 < r + 1 := Nat.lt_of_mul_lt_mul_right k2
  have hrr : r = r2 := by omega
  subst hrr
  omega

theorem usizeOfI32_natCast {n : Nat} (hn : n < 2 ^ 64) : usizeOfI32 (n : Int) = n := by
  unfold usizeOfI32
  omega

theorem rowUpOps_eq {sl dl width : Nat} (hs : (sl + width) * 4 < 2 ^ 64)
    (hd : (dl + width) * 8 < 2 ^ 64) :
    rowUpOps sl dl width = (List.range width).flatMap fun i =>
      [⟨(sl + i) * 4, dl * 8 + 8 * i, 4⟩, ⟨(sl + i) * 4, dl * 8 + 8 * i + 4, 4⟩] := by
  simp only [rowUpOps]
  have hm1 : sl * 4 ≤ (sl + width) * 4 := Nat.mul_le_mul_right 4 (by omega)
  have hm2 : dl * 8 ≤ (dl + width) * 8 := Nat.mul_le_mul_right 8 (by omega)
  have he1 : (sl + width) * 4 = sl * 4 + width * 4 := by ring
  have he2 : (dl + width) * 8 = dl * 8 + width * 8 := by ring
  rw [Nat.mod_eq_of_lt (show sl * 4 < 2 ^ 64 by omega), Nat.mod_eq_of_lt hs,
    Nat.mod_eq_of_lt (show dl * 8 < 2 ^ 64 by omega), Nat.mod_eq_of_lt hd]
  rw [show (sl + width) * 4 - sl * 4 + 3 = width * 4 + 3 by omega,
    show (dl + width) * 8 - dl * 8 + 7 = width * 8 + 7 by omega]
  rw [show (width * 4 + 3) / 4 = width by omega,
    show (width * 8 + 7) / 8 = width by omega, Nat.min_self]
  refine congrArg _ (funext fun i => ?_)
  rw [show sl * 4 + 4 * i = (sl + i) * 4 by ring]

theorem rowDownOps_eq {sl dl width : Nat} (hs : (sl + width) * 8 < 2 ^ 64)
    (hd : (dl + width) * 4 < 2 ^ 64) :
    rowDownOps sl dl width = (List.range width).map fun i =>
      ⟨sl * 8 + 8 * i, dl * 4 + 4 * i, 4⟩ := by
  simp only [rowDownOps]
  have hm1 : sl * 8 ≤ (sl + width) * 8 := Nat.mul_le_mul_right 8 (by omega)
  have hm2 : dl * 4 ≤ (dl + width) * 4 := Nat.mul_le_mul_right 4 (by omega)
  have he1 : (sl + width) * 8 = sl * 8 + width * 8 := by ring
  have he2 : (dl + width) * 4 = dl * 4 + width * 4 := by ring
  rw [Nat.mod_eq_of_lt (show sl * 8 < 2 ^ 64 by omega), Nat.mod_eq_of_lt hs,
    Nat.mod_eq_of_lt (show dl * 4 < 2 ^ 64 by omega), Nat.mod_eq_of_lt hd]
  rw [show (sl + width) * 8 - sl * 8 + 7 = width * 8 + 7 by omega,
    show (dl + width) * 4 - dl * 4 + 3 = width * 4 + 3 by omega]
  rw [show (width * 8 + 7) / 8 = width by omega,
    show (width * 4 + 3) / 4 = width by omega, Nat.min_self]

theorem rowsUpOps_eq {sx sy width height srcPitch dstPitch : Nat}
    (hsp : 0 < srcPitch) (hdp : 0 < dstPitch)
    (hso : sy * srcPitch + sx + height * srcPitch < 2 ^ 64)
    (hde : height * dstPitch < 2 ^ 64) :
    rowsUpOps sx sy width height srcPitch dstPitch =
      (List.range height).flatMap fun j =>
        rowUpOps (sy * srcPitch + sx + j * srcPitch) (j * dstPitch) width ++
          rowUpOps (sy * srcPitch + sx + j * srcPitch) (j * dstPitch + dstPitch / 2) width := by
  simp only [rowsUpOps]
  have hcnt1 : (height * srcPitch + (srcPitch - 1)) / srcPitch = height := by
    have e1 : height * srcPitch = srcPitch * height := Nat.mul_comm _ _
    have e2 : height * srcPitch + (srcPitch - 1) = srcPitch - 1 + srcPitch * height := by omega
    rw [e2, Nat.add_mul_div_left _ _ hsp, Nat.div_eq_of_lt (by omega)]
    omega
  have hcnt2 : (height * dstPitch + (dstPitch - 1)) / dstPitch = height := by
    have e1 : height * dstPitch = dstPitch * height := Nat.mul_comm _ _
    have e2 : height * dstPitch + (dstPitch - 1) = dstPitch - 1 + dstPitch * height := by omega
    rw [e2, Nat.add_mul_div_left _ _ hdp, Nat.div_eq_of_lt (by omega)]
    omega
  rw [Nat.mod_eq_of_lt (show sy * srcPitch + sx < 2 ^ 64 by omega)]
  rw [Nat.mod_eq_of_lt (show height * srcPitch + (sy * srcPitch + sx) < 2 ^ 64 by omega)]
  rw [Nat.mod_eq_of_lt hde]
  rw [show height * srcPitch + (sy * srcPitch + sx) - (sy * srcPitch + sx) + (srcPitch - 1)
      = height * srcPitch + (srcPitch - 1) by omega]
  rw [hcnt1, hcnt2, Nat.min_self]

theorem rowsDownOps_eq {dxd dyd width height srcPitch dstPitch : Nat}
    (hsp : 0 < srcPitch) (hdp : 0 < dstPitch)
    (hse : height * srcPitch < 2 ^ 64)
    (hdo : dyd * dstPitch + dxd + height * dstPitch < 2 ^ 64) :
    rowsDownOps dxd dyd width height srcPitch dstPitch =
      (List.range height).flatMap fun j =>
        rowDownOps (j * srcPitch) (dyd * dstPitch + dxd + j * dstPitch) width := by
  simp only [rowsDownOps]
  have hcnt1 : (height * srcPitch + (srcPitch - 1)) / srcPitch = height := by
    have e1 : height * srcPitch = srcPitch * height := Nat.mul_comm _ _
    have e2 : height * srcPitch + (srcPitch - 1) = srcPitch - 1 + srcPitch * height := by omega
    rw [e2, Nat.add_mul_div_left _ _ hsp, Nat.div_eq_of_lt (by omega)]
    omega
  have hcnt2 : (height * dstPitch + (dstPitch - 1)) / dstPitch = height := by
    have e1 : height * dstPitch = dstPitch * height := Nat.mul_comm _ _
    have e2 : height * dstPitch + (dstPitch - 1) = dstPitch - 1 + dstPitch * height := by omega
    rw [e2, Nat.add_mul_div_left _ _ hdp, Nat.div_eq_of_lt (by omega)]
    omega
  rw [Nat.mod_eq_of_lt (show dyd * dstPitch + dxd < 2 ^ 64 by omega)]
  rw [Nat.mod_eq_of_lt hse]
  rw [Nat.mod_eq_of_lt (show height * dstPitch + (dyd * dstPitch + dxd) < 2 ^ 64 by omega)]
  rw [show height * dstPitch + (dyd * dstPitch + dxd) - (dyd * dstPitch + dxd) + (dstPitch - 1)
      = height * dstPitch + (dstPitch - 1) by omega]
  rw [hcnt1, hcnt2, Nat.min_self]

theorem scale_rect_up_eq (src : Buf) (w h : Nat) (delta : Point32)
    (hw0 : 0 < w) (halloc : w * 4 * h < 2 ^ 32) :
    scale_rect src ⟨w, h⟩ (w * 4) delta .up =
      applyCopies src ⟨w * 4 * h, fun _ => 0⟩
        (rowsUpOps (usizeOfI32 delta.x) (usizeOfI32 delta.y) (w / 2) (h / 2) w w) := by
  simp only [scale_rect]
  rw [show w * 4 / 4 = w from by omega]
  rw [if_neg (show ¬ w = 0 by omega)]
  rw [Nat.mod_eq_of_lt halloc]

theorem scale_rect_down_eq (src : Buf) (w h : Nat) (delta : Point32)
    (hw0 : 0 < w) (halloc : w * 4 * h < 2 ^ 32) :
    scale_rect src ⟨w, h⟩ (w * 4) delta .down =
      applyCopies src ⟨w * 4 * h, fun _ => 0⟩
        (rowsDownOps (usizeOfI32 (i32wrap (-delta.x)) / 2) (usizeOfI32 (i32wrap (-delta.y)) / 2)
          (w / 2) (h / 2) w w) := by
  simp only [scale_rect]
  rw [show w * 4 / 4 = w from by omega]
  rw [if_neg (show ¬ w = 0 by omega)]
  rw [Nat.mod_eq_of_lt halloc]

theorem mem_rowUpOps {sl dl width : Nat} (hs : (sl + width) * 4 < 2 ^ 64)
    (hd : (dl + width) * 8 < 2 ^ 64) {op : CopyOp} :
    op ∈ rowUpOps sl dl width ↔
      ∃ i, i < width ∧ (op = ⟨(sl + i) * 4, dl * 8 + 8 * i, 4⟩ ∨
        op = ⟨(sl + i) * 4, dl * 8 + 8 * i + 4, 4⟩) := by
  rw [rowUpOps_eq hs hd]
  constructor
  · intro hmem
    rw [List.mem_flatMap] at hmem
    obtain ⟨i, hi, hop⟩ := hmem
    rw [List.mem_range] at hi
    simp only [List.mem_cons, List.not_mem_nil, or_false] at hop
    exact ⟨i, hi, hop⟩
  · rintro ⟨i, hi, hop⟩
    rw [List.mem_flatMap]
    refine ⟨i, List.mem_range.mpr hi, ?_⟩
    simp only [List.mem_cons, List.not_mem_nil, or_false]
    exact hop

theorem mem_rowsUpOps {w h sx sy : Nat} (hw0 : 0 < w) (hh0 : 0 < h)
    (hwh : w * 4 * h < 2 ^ 32) (hsx : sx ≤ w / 2) (hsy : sy ≤ h / 2) {op : CopyOp} :
    op ∈ rowsUpOps sx sy (w / 2) (h / 2) w w ↔
      ∃ j, j < h / 2 ∧ ∃ i, i < w / 2 ∧
        (op = ⟨(sy * w + sx + j * w + i) * 4, (j * w) * 8 + 8 * i, 4⟩ ∨
         op = ⟨(sy * w + sx + j * w + i) * 4, (j * w) * 8 + 8 * i + 4, 4⟩ ∨
         op = ⟨(sy * w + sx + j * w + i) * 4, (j * w + w / 2) * 8 + 8 * i, 4⟩ ∨
         op = ⟨(sy * w + sx + j * w + i) * 4, (j * w + w / 2) * 8 + 8 * i + 4, 4⟩) := by
  have hw30 : w * 4 < 2 ^ 32 := by
    have hb1 : w * 4 ≤ w * 4 * h := Nat.le_mul_of_pos_right (w * 4) hh0
    omega
  have hprod : h * w * 4 = w * 4 * h := by ring
  have hp1 : sy * w ≤ (h / 2) * w := Nat.mul_le_mul_right w hsy
  have hp2 : (h / 2) * w ≤ h * w := Nat.mul_le_mul_right w (by omega)
  rw [rowsUpOps_eq hw0 hw0 (by omega) (by omega)]
  constructor
  · intro hmem
    rw [List.mem_flatMap] at hmem
    obtain ⟨j, hj, hop⟩ := hmem
    rw [List.mem_range] at hj
    rw [List.mem_append] at hop
    have hjw : j * w ≤ (h / 2) * w := Nat.mul_le_mul_right w (by omega)
    rcases hop with hop | hop
    · rw [mem_rowUpOps (show (sy * w + sx + j * w + w / 2) * 4 < 2 ^ 64 by omega)
        (show (j * w + w / 2) * 8 < 2 ^ 64 by omega)] at hop
      obtain ⟨i, hi, hop2⟩ := hop
      rcases hop2 with h2 | h2
      · exact ⟨j, hj, i, hi, Or.inl h2⟩
      · exact ⟨j, hj, i, hi, Or.inr (Or.inl h2)⟩
    · rw [mem_rowUpOps (show (sy * w + sx + j * w + w / 2) * 4 < 2 ^ 64 by omega)
        (show (j * w + w / 2 + w / 2) * 8 < 2 ^ 64 by omega)] at hop
      obtain ⟨i, hi, hop2⟩ := hop
      rcases hop2 with h2 | h2
      · exact ⟨j, hj, i, hi, Or.inr (Or.inr (Or.inl h2))⟩
      · exact ⟨j, hj, i, hi, Or.inr (Or.inr (Or.inr h2))⟩
  · rintro ⟨j, hj, i, hi, hc⟩
    rw [List.mem_flatMap]
    refine ⟨j, List.mem_range.mpr hj, ?_⟩
    rw [List.mem_append]
    have hjw : j * w ≤ (h / 2) * w := Nat.mul_le_mul_right w (by omega)
    rcases hc with h2 | h2 | h2 | h2
    · exact Or.inl ((mem_rowUpOps (show (sy * w + sx + j * w + w / 2) * 4 < 2 ^ 64 by omega)
        (show (j * w + w / 2) * 8 < 2 ^ 64 by omega)).mpr ⟨i, hi, Or.inl h2⟩)
    · exact Or.inl ((mem_rowUpOps (show (sy * w + sx + j * w + w / 2) * 4 < 2 ^ 64 by omega)
        (show (j * w + w / 2) * 8 < 2 ^ 64 by omega)).mpr ⟨i, hi, Or.inr h2⟩)
    · exact Or.inr ((mem_rowUpOps (show (sy * w + sx + j * w + w / 2) * 4 < 2 ^ 64 by omega)
        (show (j * w + w / 2 + w / 2) * 8 < 2 ^ 64 by omega)).mpr ⟨i, hi, Or.inl h2⟩)
    · exact Or.inr ((mem_rowUpOps (show (sy * w + sx + j * w + w / 2) * 4 < 2 ^ 64 by omega)
        (show (j * w + w / 2 + w / 2) * 8 < 2 ^ 64 by omega)).mpr ⟨i, hi, Or.inr h2⟩)

theorem mem_rowsDownOps {w h dxd dyd : Nat} (hw0 : 0 < w) (hh0 : 0 < h)
    (hwh : w * 4 * h < 2 ^ 32) (hdx : dxd ≤ w / 2) (hdy : dyd ≤ h / 2) {op : CopyOp} :
    op ∈ rowsDownOps dxd dyd (w / 2) (h / 2) w w ↔
      ∃ j, j < h / 2 ∧ ∃ i, i < w / 2 ∧
        op = ⟨(j * w) * 8 + 8 * i, (dyd * w + dxd + j * w) * 4 + 4 * i, 4⟩ := by
  have hw30 : w * 4 < 2 ^ 32 := by
    have hb1 : w * 4 ≤ w * 4 * h := Nat.le_mul_of_pos_right (w * 4) hh0
    omega
  have hprod : h * w * 4 = w * 4 * h := by ring
  have hp1 : dyd * w ≤ (h / 2) * w := Nat.mul_le_mul_right w hdy
  have hp2 : (h / 2) * w ≤ h * w := Nat.mul_le_mul_right w (by omega)
  rw [rowsDownOps_eq hw0 hw0 (by omega) (by omega)]
  constructor
  · intro hmem
    rw [List.mem_flatMap] at hmem
    obtain ⟨j, hj, hop⟩ := hmem
    rw [List.mem_range] at hj
    have hjw : j * w ≤ (h / 2) * w := Nat.mul_le_mul_right w (by omega)
    rw [rowDownOps_eq (show (j * w + w / 2) * 8 < 2 ^ 64 by omega)
      (show (dyd * w + dxd + j * w + w / 2) * 4 < 2 ^ 64 by omega)] at hop
    rw [List.mem_map] at hop
    obtain ⟨i, hi, hop2⟩ := hop
    rw [List.mem_range] at hi
    exact ⟨j, hj, i, hi, hop2.symm⟩
  · rintro ⟨j, hj, i, hi, rfl⟩
    rw [List.mem_flatMap]
    refine ⟨j, List.mem_range.mpr hj, ?_⟩
    have hjw : j * w ≤ (h / 2) * w := Nat.mul_le_mul_right w (by omega)
    rw [rowDownOps_eq (show (j * w + w / 2) * 8 < 2 ^ 64 by omega)
      (show (dyd * w + dxd + j * w + w / 2) * 4 < 2 ^ 64 by omega)]
    rw [List.mem_map]
    exact ⟨i, List.mem_range.mpr hi, rfl⟩

theorem rowsUpOps_bounds {w h sx sy : Nat} (hw0 : 0 < w) (hh0 : 0 < h)
    (hwh : w * 4 * h < 2 ^ 32) (hsx : sx ≤ w / 2) (hsy : sy ≤ h / 2)
    {op : CopyOp} (hop : op ∈ rowsUpOps sx sy (w / 2) (h / 2) w w) :
    op.s + op.n ≤ w * 4 * h ∧ op.d + op.n ≤ w * 4 * h := by
  rw [mem_rowsUpOps hw0 hh0 hwh hsx hsy] at hop
  obtain ⟨j, hj, i, hi, hc⟩ := hop
  have e2 : w * 4 * h = (h * w) * 4 := by ring
  have hsrcb : (sy * w + sx + j * w + i) * 4 + 4 ≤ w * 4 * h := by
    have hcell : (sy + j) * w + (sx + i) < h * w :=
      cell_bound (show sx + i < 1 * w by omega) (by omega)
    have e : (sy * w + sx + j * w + i) * 4 + 4 = ((sy + j) * w + (sx + i)) * 4 + 4 := by ring
    omega
  rcases hc with rfl | rfl | rfl | rfl <;> dsimp only <;> refine ⟨hsrcb, ?_⟩
  · have hcell : (2 * j) * w + 2 * i < h * w :=
      cell_bound (show 2 * i < 2 * w by omega) (by omega)
    have e : (j * w) * 8 + 8 * i + 4 = ((2 * j) * w + 2 * i) * 4 + 4 := by ring
    omega
  · have hcell : (2 * j) * w + (2 * i + 1) < h * w :=
      cell_bound (show 2 * i + 1 < 2 * w by omega) (by omega)
    have e : (j * w) * 8 + 8 * i + 4 + 4 = ((2 * j) * w + (2 * i + 1)) * 4 + 4 := by ring
    omega
  · have hcell : (2 * j) * w + (2 * (w / 2) + 2 * i) < h * w :=
      cell_bound (show 2 * (w / 2) + 2 * i < 2 * w by omega) (by omega)
    have e : (j * w + w / 2) * 8 + 8 * i + 4
        = ((2 * j) * w + (2 * (w / 2) + 2 * i)) * 4 + 4 := by ring
    omega
  · have hcell : (2 * j) * w + (2 * (w / 2) + 2 * i + 1) < h * w :=
      cell_bound (show 2 * (w / 2) + 2 * i + 1 < 2 * w by omega) (by omega)
    have e : (j * w + w / 2) * 8 + 8 * i + 4 + 4
        = ((2 * j) * w + (2 * (w / 2) + 2 * i + 1)) * 4 + 4 := by ring
    omega

theorem rowsDownOps_bounds {w h dxd dyd : Nat} (hw0 : 0 < w) (hh0 : 0 < h)
    (hwh : w * 4 * h < 2 ^ 32) (hdx : dxd ≤ w / 2) (hdy : dyd ≤ h / 2)
    {op : CopyOp} (hop : op ∈ rowsDownOps dxd dyd (w / 2) (h / 2) w w) :
    op.s + op.n ≤ w * 4 * h ∧ op.d + op.n ≤ w * 4 * h := by
  rw [mem_rowsDownOps hw0 hh0 hwh hdx hdy] at hop
  obtain ⟨j, hj, i, hi, rfl⟩ := hop
  dsimp only
  have e2 : w * 4 * h = (h * w) * 4 := by ring
  constructor
  · have hcell : (2 * j) * w + 2 * i < h * w :=
      cell_bound (show 2 * i < 2 * w by omega) (by omega)
    have e : (j * w) * 8 + 8 * i + 4 = ((2 * j) * w + 2 * i) * 4 + 4 := by ring
    omega
  · have hcell : (dyd + j) * w + (dxd + i) < h * w :=
      cell_bound (show dxd + i < 1 * w by omega) (by omega)
    have e : (dyd * w + dxd + j * w) * 4 + 4 * i + 4
        = ((dyd + j) * w + (dxd + i)) * 4 + 4 := by ring
    omega

theorem scale_up_some {src : Buf} {w h sx sy : Nat}
    (hsrc : src.len = w * 4 * h) (hw0 : 0 < w) (hh0 : 0 < h)
    (hwh : w * 4 * h < 2 ^ 32) (hsx : sx ≤ w / 2) (hsy : sy ≤ h / 2) :
    ∃ mid, scale_rect src ⟨w, h⟩ (w * 4) ⟨(sx : Int), (sy : Int)⟩ .up = some mid ∧
      mid.len = w * 4 * h := by
  have hw30 : w * 4 < 2 ^ 32 := by
    have hb1 : w * 4 ≤ w * 4 * h := Nat.le_mul_of_pos_right (w * 4) hh0
    omega
  have hh30 : h < 2 ^ 30 := by
    have hb2 : h * 4 ≤ h * (w * 4) := Nat.mul_le_mul_left h (by omega)
    have hb3 : h * (w * 4) = w * 4 * h := by ring
    omega
  rw [scale_rect_up_eq src w h (⟨(sx : Int), (sy : Int)⟩ : Point32) hw0 hwh]
  rw [show usizeOfI32 ((⟨(sx : Int), (sy : Int)⟩ : Point32).x) = sx from
    usizeOfI32_natCast (by omega)]
  rw [show usizeOfI32 ((⟨(sx : Int), (sy : Int)⟩ : Point32).y) = sy from
    usizeOfI32_natCast (by omega)]
  have hsome : (applyCopies src ⟨w * 4 * h, fun _ => 0⟩
      (rowsUpOps sx sy (w / 2) (h / 2) w w)).isSome = true := by
    rw [applyCopies_isSome_iff]
    intro op hop
    have hb := rowsUpOps_bounds hw0 hh0 hwh hsx hsy hop
    rw [hsrc]
    exact hb
  obtain ⟨mid, hmid⟩ := Option.isSome_iff_exists.mp hsome
  exact ⟨mid, hmid, applyCopies_len hmid⟩

theorem scale_down_some {src : Buf} {w h sx sy : Nat}
    (hsrc : src.len = w * 4 * h) (hw0 : 0 < w) (hh0 : 0 < h)
    (hwh : w * 4 * h < 2 ^ 32) (hsx : sx ≤ w / 2) (hsy : sy ≤ h / 2) :
    ∃ out, scale_rect src ⟨w, h⟩ (w * 4)
        ⟨-((2 * sx : Nat) : Int), -((2 * sy : Nat) : Int)⟩ .down = some out ∧
      out.len = w * 4 * h := by
  have hw30 : w * 4 < 2 ^ 32 := by
    have hb1 : w * 4 ≤ w * 4 * h := Nat.le_mul_of_pos_right (w * 4) hh0
    omega
  have hh30 : h < 2 ^ 30 := by
    have hb2 : h * 4 ≤ h * (w * 4) := Nat.mul_le_mul_left h (by omega)
    have hb3 : h * (w * 4) = w * 4 * h := by ring
    omega
  rw [scale_rect_down_eq src w h
    (⟨-((2 * sx : Nat) : Int), -((2 * sy : Nat) : Int)⟩ : Point32) hw0 hwh]
  rw [show usizeOfI32 (i32wrap
      (-(⟨-((2 * sx : Nat) : Int), -((2 * sy : Nat) : Int)⟩ : Point32).x)) / 2 = sx by
    rw [neg_neg, show i32wrap ((2 * sx : Nat) : Int) = ((2 * sx : Nat) : Int) from
      i32wrap_eq_self (by omega) (by omega), usizeOfI32_natCast (by omega)]
    omega]
  rw [show usizeOfI32 (i32wrap
      (-(⟨-((2 * sx : Nat) : Int), -((2 * sy : Nat) : Int)⟩ : Point32).y)) / 2 = sy by
    rw [neg_neg, show i32wrap ((2 * sy : Nat) : Int) = ((2 * sy : Nat) : Int) from
      i32wrap_eq_self (by omega) (by omega), usizeOfI32_natCast (by omega)]
    omega]
  have hsome : (applyCopies src ⟨w * 4 * h, fun _ => 0⟩
      (rowsDownOps sx sy (w / 2) (h / 2) w w)).isSome = true := by
    rw [applyCopies_isSome_iff]
    intro op hop
    have hb := rowsDownOps_bounds hw0 hh0 hwh hsx hsy hop
    rw [hsrc]
    exact hb
  obtain ⟨out, hout⟩ := Option.isSome_iff_exists.mp hsome
  exact ⟨out, hout, applyCopies_len hout⟩

theorem scale_up_get {src mid : Buf} {w h sx sy : Nat}
    (hmid : scale_rect src ⟨w, h⟩ (w * 4) ⟨(sx : Int), (sy : Int)⟩ .up = some mid)
    (hw0 : 0 < w) (hh0 : 0 < h) (hwh : w * 4 * h < 2 ^ 32)
    (hsx : sx ≤ w / 2) (hsy : sy ≤ h / 2)
    (j i ch : Nat) (hj : j < h / 2) (hi : i < w / 2) (hch : ch < 4) :
    mid.get ((2 * j * w + 2 * i) * 4 + ch)
      = src.get ((sy * w + sx + j * w + i) * 4 + ch) := by
  have hw30 : w * 4 < 2 ^ 32 := by
    have hb1 : w * 4 ≤ w * 4 * h := Nat.le_mul_of_pos_right (w * 4) hh0
    omega
  have hh30 : h < 2 ^ 30 := by
    have hb2 : h * 4 ≤ h * (w * 4) := Nat.mul_le_mul_left h (by omega)
    have hb3 : h * (w * 4) = w * 4 * h := by ring
    omega
  rw [scale_rect_up_eq src w h (⟨(sx : Int), (sy : Int)⟩ : Point32) hw0 hwh] at hmid
  rw [show usizeOfI32 ((⟨(sx : Int), (sy : Int)⟩ : Point32).x) = sx from
    usizeOfI32_natCast (by omega)] at hmid
  rw [show usizeOfI32 ((⟨(sx : Int), (sy : Int)⟩ : Point32).y) = sy from
    usizeOfI32_natCast (by omega)] at hmid
  have hT : (2 * j * w + 2 * i) * 4 = (j * w) * 8 + 8 * i := by ring
  have hall : ∀ op ∈ rowsUpOps sx sy (w / 2) (h / 2) w w,
      op.covers ((2 * j * w + 2 * i) * 4 + ch) →
        src.get (op.s + ((2 * j * w + 2 * i) * 4 + ch - op.d)) =
          src.get ((sy * w + sx + j * w + i) * 4 + ch) := by
    intro op hop hcov
    rw [mem_rowsUpOps hw0 hh0 hwh hsx hsy] at hop
    obtain ⟨j2, hj2, i2, hi2, hc⟩ := hop
    rw [copyOp_covers_iff] at hcov
    obtain ⟨hcd, hcu⟩ := hcov
    rcases hc with rfl | rfl | rfl | rfl <;> dsimp only at hcd hcu ⊢ <;> rw [hT] at hcd hcu
    · have hpx : j2 * w + i2 = j * w + i := by omega
      obtain ⟨hrow, hcol⟩ := rowcol_inj (show i2 < w by omega) (show i < w by omega) hpx
      subst hrow
      subst hcol
      congr 1
      omega
    · exfalso
      omega
    · exfalso
      have hpx : j2 * w + (w / 2 + i2) = j * w + i := by omega
      obtain ⟨hrow, hcol⟩ :=
        rowcol_inj (show w / 2 + i2 < w by omega) (show i < w by omega) hpx
      omega
    · exfalso
      omega
  have hex : ∃ op ∈ rowsUpOps sx sy (w / 2) (h / 2) w w,
      op.covers ((2 * j * w + 2 * i) * 4 + ch) := by
    refine ⟨⟨(sy * w + sx + j * w + i) * 4, (j * w) * 8 + 8 * i, 4⟩, ?_, ?_⟩
    · rw [mem_rowsUpOps hw0 hh0 hwh hsx hsy]
      exact ⟨j, hj, i, hi, Or.inl rfl⟩
    · rw [copyOp_covers_iff]
      dsimp only
      omega
  exact (applyCopies_get hmid ((2 * j * w + 2 * i) * 4 + ch)
    (src.get ((sy * w + sx + j * w + i) * 4 + ch)) hall).1 hex

theorem scale_down_get {src out : Buf} {w h sx sy : Nat}
    (hout : scale_rect src ⟨w, h⟩ (w * 4)
        ⟨-((2 * sx : Nat) : Int), -((2 * sy : Nat) : Int)⟩ .down = some out)
    (hw0 : 0 < w) (hh0 : 0 < h) (hwh : w * 4 * h < 2 ^ 32)
    (hsx : sx ≤ w / 2) (hsy : sy ≤ h / 2)
    (j i ch : Nat) (hj : j < h / 2) (hi : i < w / 2) (hch : ch < 4) :
    out.get (((sy + j) * w + (sx + i)) * 4 + ch)
      = src.get ((2 * j * w + 2 * i) * 4 + ch) := by
  have hw30 : w * 4 < 2 ^ 32 := by
    have hb1 : w * 4 ≤ w * 4 * h := Nat.le_mul_of_pos_right (w * 4) hh0
    omega
  have hh30 : h < 2 ^ 30 := by
    have hb2 : h * 4 ≤ h * (w * 4) := Nat.mul_le_mul_left h (by omega)
    have hb3 : h * (w * 4) = w * 4 * h := by ring
    omega
  rw [scale_rect_down_eq src w h
    (⟨-((2 * sx : Nat) : Int), -((2 * sy : Nat) : Int)⟩ : Point32) hw0 hwh] at hout
  rw [show usizeOfI32 (i32wrap
      (-(⟨-((2 * sx : Nat) : Int), -((2 * sy : Nat) : Int)⟩ : Point32).x)) / 2 = sx by
    rw [neg_neg, show i32wrap ((2 * sx : Nat) : Int) = ((2 * sx : Nat) : Int) from
      i32wrap_eq_self (by omega) (by omega), usizeOfI32_natCast (by omega)]
    omega] at hout
  rw [show usizeOfI32 (i32wrap
      (-(⟨-((2 * sx : Nat) : Int), -((2 * sy : Nat) : Int)⟩ : Point32).y)) / 2 = sy by
    rw [neg_neg, show i32wrap ((2 * sy : Nat) : Int) = ((2 * sy : Nat) : Int) from
      i32wrap_eq_self (by omega) (by omega), usizeOfI32_natCast (by omega)]
    omega] at hout
  have hE : (sy + j) * w = sy * w + j * w := by ring
  have hT : (2 * j * w + 2 * i) * 4 = (j * w) * 8 + 8 * i := by ring
  have hall : ∀ op ∈ rowsDownOps sx sy (w / 2) (h / 2) w w,
      op.covers (((sy + j) * w + (sx + i)) * 4 + ch) →
        src.get (op.s + (((sy + j) * w + (sx + i)) * 4 + ch - op.d)) =
          src.get ((2 * j * w + 2 * i) * 4 + ch) := by
    intro op hop hcov
    rw [mem_rowsDownOps hw0 hh0 hwh hsx hsy] at hop
    obtain ⟨j2, hj2, i2, hi2, rfl⟩ := hop
    rw [copyOp_covers_iff] at hcov
    obtain ⟨hcd, hcu⟩ := hcov
    dsimp only at hcd hcu ⊢
    have hpx : j2 * w + i2 = j * w + i := by omega
    obtain ⟨hrow, hcol⟩ := rowcol_inj (show i2 < w by omega) (show i < w by omega) hpx
    subst hrow
    subst hcol
    congr 1
    omega
  have hex : ∃ op ∈ rowsDownOps sx sy (w / 2) (h / 2) w w,
      op.covers (((sy + j) * w + (sx + i)) * 4 + ch) := by
    refine ⟨⟨(j * w) * 8 + 8 * i, (sy * w + sx + j * w) * 4 + 4 * i, 4⟩, ?_, ?_⟩
    · rw [mem_rowsDownOps hw0 hh0 hwh hsx hsy]
      exact ⟨j, hj, i, hi, rfl⟩
    · rw [copyOp_covers_iff]
      dsimp only
      omega
  exact (applyCopies_get hout (((sy + j) * w + (sx + i)) * 4 + ch)
    (src.get ((2 * j * w + 2 * i) * 4 + ch)) hall).1 hex

/-- C5 (amended): for buffers with positive dimensions whose u32 allocation
pitch * h = w*4*h stays below 2^32 (no wrap), scaling up by 2 with anchor
delta (sx, sy) (each source pixel becomes a 2x2 block) and then down by 2
with the matching anchor delta (-2sx, -2sy) (keeping every other pixel)
reproduces the original buffer exactly at every pixel of the interior window
[sx, sx + w/2) x [sy, sy + h/2). -/
theorem scale_roundtrip {src : Buf} {w h sx sy : Nat}
    (hsrc : src.len = w * 4 * h) (hw0 : 0 < w) (hh0 : 0 < h)
    (hwh : w * 4 * h < 2 ^ 32) (hsx : sx ≤ w / 2) (hsy : sy ≤ h / 2)
    (x y ch : Nat) (hx1 : sx ≤ x) (hx2 : x < sx + w / 2)
    (hy1 : sy ≤ y) (hy2 : y < sy + h / 2) (hch : ch < 4) :
    ∃ mid out, scale_rect src ⟨w, h⟩ (w * 4) ⟨(sx : Int), (sy : Int)⟩ .up = some mid ∧
      scale_rect mid ⟨w, h⟩ (w * 4)
          ⟨-((2 * sx : Nat) : Int), -((2 * sy : Nat) : Int)⟩ .down = some out ∧
      out.get ((y * w + x) * 4 + ch) = src.get ((y * w + x) * 4 + ch) := by
  obtain ⟨mid, hmid, hmidlen⟩ := scale_up_some hsrc hw0 hh0 hwh hsx hsy
  obtain ⟨out, hout, _⟩ := scale_down_some hmidlen hw0 hh0 hwh hsx hsy
  refine ⟨mid, out, hmid, hout, ?_⟩
  have hdown := scale_down_get hout hw0 hh0 hwh hsx hsy (y - sy) (x - sx) ch
    (by omega) (by omega) hch
  have hup := scale_up_get hmid hw0 hh0 hwh hsx hsy (y - sy) (x - sx) ch
    (by omega) (by omega) hch
  have e1 : ((sy + (y - sy)) * w + (sx + (x - sx))) * 4 + ch = (y * w + x) * 4 + ch := by
    rw [show sy + (y - sy) = y from by omega, show sx + (x - sx) = x from by omega]
  have e2 : (sy * w + sx + (y - sy) * w + (x - sx)) * 4 + ch = (y * w + x) * 4 + ch := by
    have h5 : sy * w + (y - sy) * w = y * w := by
      rw [← Nat.add_mul]
      rw [show sy + (y - sy) = y from by omega]
    omega
  rw [e1] at hdown
  rw [e2] at hup
  rw [hdown, hup]

/-- C5 witness: the amended theorem on a concrete 4x4 buffer with anchor
delta (1, 1) at the interior pixel (2, 2). -/
theorem scale_roundtrip_witness :
    (⟨64, fun b => b % 8⟩ : Buf).len = 4 * 4 * 4 ∧ 0 < 4 ∧ 4 * 4 * 4 < 2 ^ 32 ∧
      1 ≤ 4 / 2 ∧ 1 ≤ 2 ∧ 2 < 1 + 4 / 2 ∧ 0 < 4 ∧
      (∃ mid out,
        scale_rect ⟨64, fun b => b % 8⟩ ⟨4, 4⟩ (4 * 4) ⟨(1 : Int), (1 : Int)⟩ .up = some mid ∧
        scale_rect mid ⟨4, 4⟩ (4 * 4)
            ⟨-((2 * 1 : Nat) : Int), -((2 * 1 : Nat) : Int)⟩ .down = some out ∧
        out.get ((2 * 4 + 2) * 4 + 0) = (⟨64, fun b => b % 8⟩ : Buf).get ((2 * 4 + 2) * 4 + 0)) :=
  ⟨rfl, by norm_num, by norm_num, by norm_num, by norm_num, by norm_num, by norm_num,
    @scale_roundtrip ⟨64, fun b => b % 8⟩ 4 4 1 1 rfl (by norm_num) (by norm_num)
      (by norm_num) (by norm_num) (by norm_num) 2 2 0 (by norm_num) (by norm_num)
      (by norm_num) (by norm_num) (by norm_num)⟩

/-- C5 counterexample: at buffer size w = h = 2^15 the u32 allocation
pitch * h = 2^17 * 2^15 = 2^32 wraps to 0, so the destination buffer is
empty and the very first pixel copy of the up-scaling is out of bounds:
scale_rect panics (the embedding returns none, isSome is false) where the
claimed round trip asserts both scalings succeed. -/
theorem scale_alloc_wrap_cex :
    (scale_rect ⟨2 ^ 32, fun _ => 0⟩ ⟨2 ^ 15, 2 ^ 15⟩ (2 ^ 15 * 4) ⟨0, 0⟩ .up).isSome
      = false := by
  simp only [scale_rect]
  rw [show (2 : Nat) ^ 15 * 4 / 4 = 2 ^ 15 from by norm_num]
  rw [if_neg (show ¬ (2 : Nat) ^ 15 = 0 from by norm_num)]
  rw [show (2 : Nat) ^ 15 * 4 * 2 ^ 15 % 2 ^ 32 = 0 from by norm_num]
  rw [show usizeOfI32 (0 : Int) = 0 from by decide]
  rw [rowsUpOps_eq (show 0 < 2 ^ 15 from by norm_num) (show 0 < 2 ^ 15 from by norm_num)
    (show (0 : Nat) * 2 ^ 15 + 0 + 2 ^ 15 / 2 * 2 ^ 15 < 2 ^ 64 from by norm_num)
    (show (2 : Nat) ^ 15 / 2 * 2 ^ 15 < 2 ^ 64 from by norm_num)]
  rw [← Bool.not_eq_true]
  rw [applyCopies_isSome_iff]
  intro hall
  have hmem : (⟨(0 * 2 ^ 15 + 0 + 0 * 2 ^ 15 + 0) * 4, 0 * 2 ^ 15 * 8 + 8 * 0, 4⟩ : CopyOp)
      ∈ (List.range (2 ^ 15 / 2)).flatMap fun j =>
        rowUpOps (0 * 2 ^ 15 + 0 + j * 2 ^ 15) (j * 2 ^ 15) (2 ^ 15 / 2) ++
          rowUpOps (0 * 2 ^ 15 + 0 + j * 2 ^ 15) (j * 2 ^ 15 + 2 ^ 15 / 2) (2 ^ 15 / 2) := by
    rw [List.mem_flatMap]
    refine ⟨0, List.mem_range.mpr (by norm_num), ?_⟩
    rw [List.mem_append]
    refine Or.inl ?_
    rw [rowUpOps_eq
      (show (0 * 2 ^ 15 + 0 + 0 * 2 ^ 15 + 2 ^ 15 / 2) * 4 < 2 ^ 64 from by norm_num)
      (show (0 * 2 ^ 15 + 2 ^ 15 / 2) * 8 < 2 ^ 64 from by norm_num)]
    rw [List.mem_flatMap]
    refine ⟨0, List.mem_range.mpr (by norm_num), ?_⟩
    exact List.mem_cons_self _ _
  have hb := (hall _ hmem).2
  dsimp only at hb
  omega

/-- C10 counterexample: on a 4x4 buffer the delta (3, 0) violates the claimed
precondition dx <= w/2 = 2 yet every access of scale_rect Up stays in bounds
and it succeeds; and the negative delta (-1, 0) also succeeds, because the
i32-to-usize cast makes the source offset 2^64 - 1 and the wrapped end of
the source row range (7) falls below its start, so the row loop is empty and
the zero buffer is returned rather than a panic.  Staying in bounds
therefore holds neither only under the claimed precondition nor exactly
when it holds. -/
theorem scale_up_only_cex :
    ((scale_rect ⟨64, fun _ => 0⟩ ⟨4, 4⟩ (4 * 4) ⟨3, 0⟩ .up).isSome = true ∧
        ¬ ((3 : Int) ≤ ((4 / 2 : Nat) : Int))) ∧
      (scale_rect ⟨64, fun _ => 0⟩ ⟨4, 4⟩ (4 * 4) ⟨-1, 0⟩ .up).isSome = true ∧
        ¬ (0 ≤ (-1 : Int)) := by
  refine ⟨⟨?_, ?_⟩, ?_, ?_⟩
  · decide
  · decide
  · decide
  · decide

/-- C10 (amended): on a source buffer of length pitch * h with pitch = w * 4,
positive dimensions and no allocation wrap (w*4*h < 2^32), the precondition
0 <= dx <= w/2 and 0 <= dy <= h/2 is sufficient for every buffer access of
scale_rect Up to stay in bounds (the panic branch of the embedding is not
taken and it returns some).  The precondition is not necessary, and a
negative delta component need not cause a panic: the wrapped usize offset
can make the row loop empty or land back in range (see the
counterexample). -/
theorem scale_up_bounds (src : Buf) (w h : Nat) (dx dy : Int)
    (hsrc : src.len = w * 4 * h) (hw0 : 0 < w) (hh0 : 0 < h)
    (hwh : w * 4 * h < 2 ^ 32)
    (h1 : 0 ≤ dx) (h2 : dx ≤ ((w / 2 : Nat) : Int))
    (h3 : 0 ≤ dy) (h4 : dy ≤ ((h / 2 : Nat) : Int)) :
    (scale_rect src ⟨w, h⟩ (w * 4) ⟨dx, dy⟩ .up).isSome = true := by
  obtain ⟨sx, rfl⟩ := Int.eq_ofNat_of_zero_le h1
  obtain ⟨sy, rfl⟩ := Int.eq_ofNat_of_zero_le h3
  obtain ⟨mid, hmid, _⟩ := scale_up_some hsrc hw0 hh0 hwh
    (by exact_mod_cast h2) (by exact_mod_cast h4)
  rw [hmid]
  rfl

/-- C10 witness: the amended theorem at a concrete 4x4 buffer with delta
(1, 0). -/
theorem scale_up_bounds_witness :
    (⟨64, fun _ => 0⟩ : Buf).len = 4 * 4 * 4 ∧ 0 < 4 ∧ 0 < 4 ∧ 4 * 4 * 4 < 2 ^ 32 ∧
      0 ≤ (1 : Int) ∧ (1 : Int) ≤ ((4 / 2 : Nat) : Int) ∧
      0 ≤ (0 : Int) ∧ (0 : Int) ≤ ((4 / 2 : Nat) : Int) ∧
      (scale_rect ⟨64, fun _ => 0⟩ ⟨4, 4⟩ (4 * 4) ⟨1, 0⟩ .up).isSome = true :=
  ⟨rfl, by decide, by decide, by decide, by decide, by decide, by decide, by decide,
    scale_up_bounds ⟨64, fun _ => 0⟩ 4 4 1 0 rfl (by decide) (by decide) (by decide)
      (by decide) (by decide) (by decide) (by decide)⟩
